import Mathlib

/-!
Verification development for the minecraft-modupdater repository.

The Python sources are embedded shallowly:
* `game_version.py` — version parsing and comparison.  Python `list` mutation
  (the in-place `append` performed by `compare_game_version`) is modelled by
  returning the final value of every argument next to the comparison status.
* `workflow.py` — the per-backend resolution loops of
  `fetch_metadata_for_ghmod` and `fetch_metadata_for_mrmod`, modelled as state
  machines over the (page-concatenated) candidate stream, instrumented with a
  visited-candidate counter and a log of tie-break events.
* `downloader.py` — `_download_single`, modelled as an interpreter over a
  scripted list of server responses and an explicit file-system state.

Machine integers do not overflow in any of the modelled code paths (Python
integers are unbounded), so versions are plain `Int` / `Nat` values.
-/

/-- Enum `VersionCompareStatus` from `enumcls.py` (an `IntEnum`). -/
inductive VersionCompareStatus
  | Consistent
  | OlderMinor
  | OlderMajor
  | NewerMinor
  | NewerMajor
  | InvalidVersion
deriving DecidableEq, BEq, Repr

/-- The numeric value of the `IntEnum` member (`int(status)` in Python). -/
def VersionCompareStatus.val : VersionCompareStatus → Nat
  | .Consistent => 0
  | .OlderMinor => 1
  | .OlderMajor => 2
  | .NewerMinor => 3
  | .NewerMajor => 4
  | .InvalidVersion => 5

/-- Characters stripped by Python `int(str)` before parsing (ASCII whitespace). -/
def pyWhitespace (c : Char) : Bool :=
  c = ' ' || c = '\t' || c = '\n' || c = '\r' || c = '\x0b' || c = '\x0c'

/-- Drop leading Python whitespace. -/
def dropLeadingWs : List Char → List Char
  | [] => []
  | c :: rest => if pyWhitespace c then dropLeadingWs rest else c :: rest

/-- Strip Python whitespace from both ends (what `int(str)` tolerates). -/
def stripWs (l : List Char) : List Char :=
  dropLeadingWs ((dropLeadingWs l.reverse).reverse)

/-- Digit run of a Python integer literal: digits with single underscores
allowed strictly between digits, accumulating the value. -/
def digitsVal (acc : Nat) : List Char → Option Nat
  | [] => some acc
  | c :: rest =>
    if c.isDigit then digitsVal (10 * acc + (c.toNat - 48)) rest
    else if c = '_' then
      match rest with
      | c2 :: rest2 =>
        if c2.isDigit then digitsVal (10 * acc + (c2.toNat - 48)) rest2 else none
      | [] => none
    else none

/-- Unsigned part of Python `int(str)`: a nonempty digit run (underscores
between digits allowed, none leading). -/
def pyNatOfChars : List Char → Option Nat
  | [] => none
  | c :: rest => if c.isDigit then digitsVal (c.toNat - 48) rest else none

/-- Python `int(str)` (ASCII model): optional surrounding whitespace, optional
sign, nonempty digits.  `ValueError` is `none`. -/
def pyInt (l : List Char) : Option Int :=
  match stripWs l with
  | '+' :: rest => (pyNatOfChars rest).map Int.ofNat
  | '-' :: rest => (pyNatOfChars rest).map (fun n => -(n : Int))
  | rest => (pyNatOfChars rest).map Int.ofNat

/-- Python `str.split('.')`: splits at every dot, keeping empty pieces. -/
def splitDots : List Char → List (List Char)
  | [] => [[]]
  | '.' :: rest => [] :: splitDots rest
  | c :: rest =>
    match splitDots rest with
    | g :: gs => (c :: g) :: gs
    | [] => [[c]]

/-- Python `[int(i) for i in ids]`; a `ValueError` anywhere yields `none`. -/
def pyIntList : List (List Char) → Option (List Int)
  | [] => some []
  | s :: rest =>
    match pyInt s, pyIntList rest with
    | some i, some l => some (i :: l)
    | _, _ => none

/-- The function `check_valid_game_version` of `game_version.py`: split on `.`,
require 2 or 3 integer segments whose first segment is 1; otherwise `None`. -/
def check_valid_game_version (game_version : String) : Option (List Int) :=
  let ids := splitDots game_version.data
  if ids.length < 2 || ids.length > 3 then none
  else
    match pyIntList ids with
    | none => none
    | some l => if l.headD 0 ≠ 1 then none else some l

/-- Argument of `compare_game_version`, whose Python annotation is
`List[int] | str`. -/
inductive GVArg
  | str (s : String)
  | list (l : List Int)
deriving DecidableEq, Repr

/-- The value a `str` argument is converted to (`check_valid_game_version`),
while a `list` argument is used as is. -/
def GVArg.resolve : GVArg → Option (List Int)
  | GVArg.str s => check_valid_game_version s
  | GVArg.list l => some l

/-- Final value of an argument after the call: a Python `str` is immutable; a
Python `list` is the very object the caller passed, so in-place `append`
mutations are visible to the caller. -/
def GVArg.update : GVArg → List Int → GVArg
  | GVArg.str s, _ => GVArg.str s
  | GVArg.list _, l => GVArg.list l

/-- The function `compare_game_version` of `game_version.py`.  The result is
`none` when Python would raise `IndexError` (indexing a list of length < 2 —
reachable only for unvalidated caller-supplied lists); otherwise it is the
returned status together with the final values of both arguments (recording
the in-place `append` mutation of list arguments). -/
def compare_game_version (version1 version2 : GVArg) :
    Option (VersionCompareStatus × GVArg × GVArg) :=
  match version1.resolve with
  | none => some (VersionCompareStatus.InvalidVersion, version1, version2)
  | some v1 =>
    match version2.resolve with
    | none => some (VersionCompareStatus.InvalidVersion, version1, version2)
    | some v2 =>
      if v1 = v2 then
        some (VersionCompareStatus.Consistent, version1.update v1, version2.update v2)
      else
        match v1[1]?, v2[1]? with
        | some m1, some m2 =>
          if m1 = m2 then
            let v1' := if v1.length = 2 then v1 ++ [0] else v1
            let v2' := if v2.length = 2 then v2 ++ [0] else v2
            match v1'[2]?, v2'[2]? with
            | some p1, some p2 =>
              some ((if p1 > p2 then VersionCompareStatus.OlderMinor
                     else VersionCompareStatus.NewerMinor),
                    version1.update v1', version2.update v2')
            | _, _ => none
          else
            some ((if m1 > m2 then VersionCompareStatus.OlderMajor
                   else VersionCompareStatus.NewerMajor),
                  version1.update v1, version2.update v2)
        | _, _ => none

/-- Status of `compare_game_version` on two string arguments.  With string
arguments the converted lists always have length 2 or 3, so the `IndexError`
case is unreachable; the `InvalidVersion` fallback is dead code kept only for
totality. -/
def compare_game_version_str (s1 s2 : String) : VersionCompareStatus :=
  match compare_game_version (GVArg.str s1) (GVArg.str s2) with
  | some (st, _, _) => st
  | none => VersionCompareStatus.InvalidVersion

/-- Normalisation described by the specification: `patch` defaults to 0 when
absent, giving a 3-tuple. -/
def normalize3 (v : List Int) : List Int :=
  if v.length = 2 then v ++ [0] else v

/-- Mirror of a comparison outcome (Older and Newer swapped, `Consistent` and
`InvalidVersion` fixed), as the specification's antisymmetry property uses. -/
def mirrorStatus : VersionCompareStatus → VersionCompareStatus
  | .Consistent => .Consistent
  | .OlderMinor => .NewerMinor
  | .OlderMajor => .NewerMajor
  | .NewerMinor => .OlderMinor
  | .NewerMajor => .OlderMajor
  | .InvalidVersion => .InvalidVersion

/-- The degenerate pairs: both strings parse, to different lists that
normalise to the same 3-tuple (the patch is explicit on exactly one side). -/
def degeneratePair (a b : String) : Bool :=
  match check_valid_game_version a, check_valid_game_version b with
  | some v1, some v2 => decide (v1 ≠ v2) && decide (normalize3 v1 = normalize3 v2)
  | _, _ => false

/-- Longest digit prefix of a character list, with the remainder. -/
def takeDigits : List Char → List Char × List Char
  | [] => ([], [])
  | c :: rest =>
    if c.isDigit then
      let (ds, r) := takeDigits rest
      (c :: ds, r)
    else ([], c :: rest)

/-- One attempt of the `fuzzy_compare_game_version` regular expression
`(?<![.\d])1\.(\d+)(?:\.(\d+)(?!\.))?(?:-pre)?` at the current position.
`prev` is the character immediately before the position (`none` at the start
of the text); the lookbehind rejects a preceding dot or digit.  The optional
patch group is greedy: when the maximal digit run is followed by a dot the
engine backtracks one digit to satisfy the `(?!\.)` lookahead (possible only
when the run has at least two digits), otherwise the group is skipped.
Returns the matched text (including a consumed `-pre` suffix) and the rest. -/
def matchVersionAt (prev : Option Char) (l : List Char) :
    Option (List Char × List Char) :=
  let lookbehindFail :=
    match prev with
    | some c => c = '.' || c.isDigit
    | none => false
  if lookbehindFail then none
  else
    match l with
    | '1' :: '.' :: rest =>
      match takeDigits rest with
      | ([], _) => none
      | (d :: ds, rest2) =>
        let core0 : List Char := '1' :: '.' :: d :: ds
        let (core, rest3) :=
          match rest2 with
          | '.' :: r =>
            match takeDigits r with
            | ([], _) => (core0, rest2)
            | (d2 :: ds2, r2) =>
              match r2 with
              | '.' :: _ =>
                if (d2 :: ds2).length ≥ 2 then
                  (core0 ++ '.' :: (d2 :: ds2).dropLast,
                   (d2 :: ds2).getLastD '0' :: r2)
                else (core0, rest2)
              | _ => (core0 ++ '.' :: d2 :: ds2, r2)
          | _ => (core0, rest2)
        match rest3 with
        | '-' :: 'p' :: 'r' :: 'e' :: r4 => some (core ++ ['-', 'p', 'r', 'e'], r4)
        | _ => some (core, rest3)
    | _ => none

/-- Scan for all non-overlapping matches left to right (`re.finditer`):
advance one character on failure, continue right after the match on success.
The fuel argument bounds the recursion; it starts at one more than the text
length, which the scan can never consume since every step drops at least one
character. -/
def findAllAux : Nat → Option Char → List Char → List (List Char)
  | 0, _, _ => []
  | _ + 1, _, [] => []
  | fuel + 1, prev, c :: rest =>
    match matchVersionAt prev (c :: rest) with
    | some (m, r) => m :: findAllAux fuel m.getLast? r
    | none => findAllAux fuel (some c) rest

/-- All matches of the version pattern in a text, as strings. -/
def findAll (s : String) : List String :=
  (findAllAux (s.data.length + 1) none s.data).map fun l => String.mk l

/-- The `compare_game_version(version1, version2)` call of the scan loops:
`version1` is the (possibly already mutated) parsed list, `version2` a string.
Returns the status and the final value of the list (Python mutates it in
place).  The fallback is unreachable for lists of length 2 or 3. -/
def cgvListStr (v1 : List Int) (s : String) : VersionCompareStatus × List Int :=
  match compare_game_version (GVArg.list v1) (GVArg.str s) with
  | some (st, GVArg.list v1', _) => (st, v1')
  | _ => (VersionCompareStatus.InvalidVersion, v1)

/-- The adoption decision shared (as duplicated code) by the two scan loops
of `game_version.py`: adopt the new candidate when its status is strictly
better (smaller ordinal) than `final_res`, or on a non-`InvalidVersion` tie
when no best exists yet or the head-to-head comparison of the current best
`version_res` against the new candidate is at least `NewerMinor` (ordinal
3). -/
def adoptDecision (final_res result : VersionCompareStatus)
    (version_res : Option String) (candidate : String) : Bool :=
  if result.val < final_res.val then true
  else if result.val = final_res.val ∧ result ≠ VersionCompareStatus.InvalidVersion then
    match version_res with
    | none => true
    | some vr => decide (3 ≤ (compare_game_version_str vr candidate).val)
  else false

/-- Loop body state of `compare_game_versions`: iterate over `version2_list`,
threading the first argument's list (mutations persist across iterations),
`final_res` and `version_res`.  `none` models an uncaught `IndexError`. -/
def cgvsLoop (v1 : List Int) (final_res : VersionCompareStatus)
    (version_res : Option String) :
    List String → Option (VersionCompareStatus × Option String)
  | [] => some (final_res, version_res)
  | version2 :: rest =>
    match compare_game_version (GVArg.list v1) (GVArg.str version2) with
    | none => none
    | some (result, a1, _) =>
      let v1' := match a1 with | GVArg.list l => l | GVArg.str _ => v1
      let adopt := adoptDecision final_res result version_res version2
      let final' := if adopt then result else final_res
      let vres' := if adopt then some version2 else version_res
      if final' = VersionCompareStatus.Consistent then some (final', vres')
      else cgvsLoop v1' final' vres' rest

/-- Return shape of `compare_game_versions`: the early exit for an invalid
string `version1` returns a bare status, the normal path a (status, match)
tuple — the Python function really has this asymmetric return type. -/
inductive CGVSRet
  | bare (s : VersionCompareStatus)
  | pair (s : VersionCompareStatus) (v : Option String)
deriving DecidableEq, Repr

/-- The function `compare_game_versions` of `game_version.py`.  `none` models
an uncaught `IndexError` from a too-short caller-supplied list. -/
def compare_game_versions (version1 : GVArg) (version2_list : List String) :
    Option CGVSRet :=
  match version1 with
  | GVArg.str s =>
    match check_valid_game_version s with
    | none => some (CGVSRet.bare VersionCompareStatus.InvalidVersion)
    | some v1 => (cgvsLoop v1 VersionCompareStatus.InvalidVersion none version2_list).map
        fun r => CGVSRet.pair r.1 r.2
  | GVArg.list v1 => (cgvsLoop v1 VersionCompareStatus.InvalidVersion none version2_list).map
      fun r => CGVSRet.pair r.1 r.2

/-- One processed regex match inside `fuzzy_compare_game_version`: the matched
text, the status computed against the (threaded) target, the pre-state of
(`final_res`, `version_res`), and whether the match was adopted. -/
structure FuzzyEvent where
  m : String
  status : VersionCompareStatus
  prevRes : VersionCompareStatus
  prevBest : Option String
  adopted : Bool
deriving DecidableEq, Repr

/-- Inner loop of `fuzzy_compare_game_version` over the matches of one name,
instrumented with the event log.  Threads the mutable parsed target `v1`;
breaks as soon as `final_res` becomes `Consistent`. -/
def fuzzyInner (v1 : List Int) (final_res : VersionCompareStatus)
    (version_res : Option String) (evs : List FuzzyEvent) :
    List String → List Int × VersionCompareStatus × Option String × List FuzzyEvent
  | [] => (v1, final_res, version_res, evs)
  | m :: rest =>
    let (res, v1') := cgvListStr v1 m
    let adopt := adoptDecision final_res res version_res m
    let ev : FuzzyEvent := ⟨m, res, final_res, version_res, adopt⟩
    let final' := if adopt then res else final_res
    let vres' := if adopt then some m else version_res
    if final' = VersionCompareStatus.Consistent then (v1', final', vres', evs ++ [ev])
    else fuzzyInner v1' final' vres' (evs ++ [ev]) rest

/-- Outer loop of `fuzzy_compare_game_version` over the names; the outer
`break` fires when the inner loop ended on `Consistent`. -/
def fuzzyOuter (v1 : List Int) (final_res : VersionCompareStatus)
    (version_res : Option String) (evs : List FuzzyEvent) :
    List String → List Int × VersionCompareStatus × Option String × List FuzzyEvent
  | [] => (v1, final_res, version_res, evs)
  | name :: rest =>
    let r := fuzzyInner v1 final_res version_res evs (findAll name)
    if r.2.1 = VersionCompareStatus.Consistent then r
    else fuzzyOuter r.1 r.2.1 r.2.2.1 r.2.2.2 rest

/-- Instrumented run of `fuzzy_compare_game_version`: result status, result
match, and the log of processed matches.  A single-string `names` argument in
Python is first wrapped into a one-element list, so only the list form is
modelled. -/
def fuzzyRun (version : String) (names : List String) :
    VersionCompareStatus × Option String × List FuzzyEvent :=
  match check_valid_game_version version with
  | none => (VersionCompareStatus.InvalidVersion, none, [])
  | some v1 =>
    let r := fuzzyOuter v1 VersionCompareStatus.InvalidVersion none [] names
    (r.2.1, r.2.2.1, r.2.2.2)

/-- The function `fuzzy_compare_game_version` of `game_version.py`. -/
def fuzzy_compare_game_version (version : String) (names : List String) :
    VersionCompareStatus × Option String :=
  ((fuzzyRun version names).1, (fuzzyRun version names).2.1)

/-- One GitHub release as consumed by `fetch_metadata_for_ghmod`: its
`prerelease` flag, its `assets` list (a missing key behaves like an empty
list: both are skipped and nothing else reads it), and the two strings fed to
the fuzzy version search.  `α` is the opaque asset payload. -/
structure GHRelease (α : Type) where
  prerelease : Bool
  assets : List α
  tag_name : String
  name : String
deriving DecidableEq, Repr

/-- A head-to-head tie in the GitHub loop (`compare_game_version` returned
`Consistent` against the current best): the quality flags of the current best
and of the new candidate, and whether the new candidate was adopted. -/
structure GHTieEvent where
  bestPre : Bool
  newPre : Bool
  adopted : Bool
deriving DecidableEq, Repr

/-- Result of a resolution loop: the success dictionary (matched version and
the first file of the selected entry), the no-match failure dictionary, or an
uncaught Python exception (`TypeError`/`IndexError` from subscripting `None`
or an empty list — unreachable under the loop's own eligibility checks). -/
inductive FetchResult (α : Type)
  | success (version : Option String) (asset : α)
  | noMatch
  | pythonError
deriving DecidableEq, Repr

/-- The early return of the GitHub loop when `last_latest_counter` reaches
`checks_after_latest`: `GithubModFile(latest_found_version,
selected_file['assets'][0])`.  A `None` or asset-less `selected_file` would
raise in Python. -/
def ghStop {α : Type} : Option (Option String × GHRelease α) → FetchResult α
  | some (lv, sf) =>
    match sf.assets with
    | a :: _ => FetchResult.success lv a
    | [] => FetchResult.pythonError
  | none => FetchResult.pythonError

/-- The return after the GitHub release stream is exhausted:
`if selected_file: success else failure`. -/
def ghEnd {α : Type} : Option (Option String × GHRelease α) → FetchResult α
  | some (lv, sf) =>
    match sf.assets with
    | a :: _ => FetchResult.success lv a
    | [] => FetchResult.pythonError
  | none => FetchResult.noMatch

/-- Loop of `fetch_metadata_for_ghmod` over the stream of releases (pages are
processed in order with all state carried across, so the stream is their
concatenation).  State: `best` bundles `latest_found_version` and
`selected_file` (the two Python variables are assigned only together; `none`
models both `None`); `counter` is `last_latest_counter` (a Python int
starting at -1); `visited` counts loop iterations entered; `evs` logs
head-to-head ties.  Pre-releases and releases without assets are skipped
before the counter check; every other iteration ends with the
`last_latest_counter >= checks_after_latest` test. -/
def ghLoop {α : Type} (target : String) (checks : Int) :
    Option (Option String × GHRelease α) → Int → Nat → List GHTieEvent →
    List (GHRelease α) → FetchResult α × Nat × List GHTieEvent
  | best, _, visited, evs, [] => (ghEnd best, visited, evs)
  | best, counter, visited, evs, r :: rest =>
    if r.prerelease then ghLoop target checks best counter (visited + 1) evs rest
    else if r.assets.length = 0 then ghLoop target checks best counter (visited + 1) evs rest
    else
      let fz := fuzzy_compare_game_version target [r.tag_name, r.name]
      let s := fz.1
      let version := fz.2
      if s = VersionCompareStatus.Consistent ∨ s = VersionCompareStatus.OlderMinor then
        match best with
        | none =>
          if checks ≤ (0 : Int) then (ghStop (some (version, r)), visited + 1, evs)
          else ghLoop target checks (some (version, r)) 0 (visited + 1) evs rest
        | some (lv, sf) =>
          match version, lv with
          | some vstr, some lvstr =>
            let s2 := compare_game_version_str vstr lvstr
            let adopt := s2 = VersionCompareStatus.OlderMinor ∨
              s2 = VersionCompareStatus.OlderMajor ∨
              (s2 = VersionCompareStatus.Consistent ∧ sf.prerelease = false ∧ r.prerelease = true)
            let evs' := if s2 = VersionCompareStatus.Consistent
              then evs ++ [⟨sf.prerelease, r.prerelease, decide adopt⟩] else evs
            if adopt then
              if checks ≤ (0 : Int) then (ghStop (some (version, r)), visited + 1, evs')
              else ghLoop target checks (some (version, r)) 0 (visited + 1) evs' rest
            else
              if checks ≤ counter + 1 then (ghStop best, visited + 1, evs')
              else ghLoop target checks best (counter + 1) (visited + 1) evs' rest
          | _, _ => (FetchResult.pythonError, visited + 1, evs)
      else
        match best with
        | some _ =>
          if checks ≤ counter + 1 then (ghStop best, visited + 1, evs)
          else ghLoop target checks best (counter + 1) (visited + 1) evs rest
        | none =>
          if checks ≤ counter then (ghStop best, visited + 1, evs)
          else ghLoop target checks best counter (visited + 1) evs rest

/-- Instrumented run of the `fetch_metadata_for_ghmod` resolution loop:
result, number of candidates visited, and tie-event log.  `checks` is
`session.checks_after_latest` (config, default 5). -/
def ghRun {α : Type} (target : String) (checks : Int) (releases : List (GHRelease α)) :
    FetchResult α × Nat × List GHTieEvent :=
  ghLoop target checks none (-1) 0 [] releases

/-- The resolution outcome of `fetch_metadata_for_ghmod` of `workflow.py` on a
release stream. -/
def fetch_metadata_for_ghmod {α : Type} (target : String) (checks : Int)
    (releases : List (GHRelease α)) : FetchResult α :=
  (ghRun target checks releases).1

/-- One Modrinth version entry as consumed by `fetch_metadata_for_mrmod`.
`version_type` is `none` when the key is missing; a missing `files` or
`game_versions` key behaves like an empty list (both are only length-tested
before use).  `α` is the opaque file payload. -/
structure MRVersion (α : Type) where
  loaders : List String
  files : List α
  game_versions : List String
  version_type : Option String
deriving DecidableEq, Repr

/-- A head-to-head tie in the Modrinth loop: the `version_type` of the current
best and of the new candidate, and whether the new candidate was adopted. -/
structure MRTieEvent where
  bestType : Option String
  newType : Option String
  adopted : Bool
deriving DecidableEq, Repr

/-- The early return of the Modrinth loop:
`ModrinthModFile(latest_found_version, selected_file['files'][0])`. -/
def mrStop {α : Type} : Option (Option String × MRVersion α) → FetchResult α
  | some (lv, sf) =>
    match sf.files with
    | a :: _ => FetchResult.success lv a
    | [] => FetchResult.pythonError
  | none => FetchResult.pythonError

/-- The return after the Modrinth version stream is exhausted. -/
def mrEnd {α : Type} : Option (Option String × MRVersion α) → FetchResult α
  | some (lv, sf) =>
    match sf.files with
    | a :: _ => FetchResult.success lv a
    | [] => FetchResult.pythonError
  | none => FetchResult.noMatch

/-- The status and matched version `fetch_metadata_for_mrmod` computes for an
entry: `compare_game_versions(target_version, modrinth_version['game_versions'])`.
`none` models the two crashing unpacks (bare-status return for an invalid
target, or an `IndexError`) — unreachable for a valid target string. -/
def mrCompare (target : String) (v : List String) :
    Option (VersionCompareStatus × Option String) :=
  match compare_game_versions (GVArg.str target) v with
  | some (CGVSRet.pair s ver) => some (s, ver)
  | _ => none

/-- Loop of `fetch_metadata_for_mrmod` over the version entries.  Skips apply
loader mismatch, empty `files`, empty `game_versions`, and a missing or
`alpha` `version_type`, in source order; every non-skipped iteration ends
with the `last_latest_counter >= checks_after_latest` test.  In the tie
branch Python reads `selected_file['version_type']` directly; the adopted
entry always has the key (it passed the skip), so the `Option` equality used
here agrees with the source. -/
def mrLoop {α : Type} (loader target : String) (checks : Int) :
    Option (Option String × MRVersion α) → Int → Nat → List MRTieEvent →
    List (MRVersion α) → FetchResult α × Nat × List MRTieEvent
  | best, _, visited, evs, [] => (mrEnd best, visited, evs)
  | best, counter, visited, evs, r :: rest =>
    if ¬ loader ∈ r.loaders then mrLoop loader target checks best counter (visited + 1) evs rest
    else if r.files.length = 0 then mrLoop loader target checks best counter (visited + 1) evs rest
    else if r.game_versions.length = 0 then
      mrLoop loader target checks best counter (visited + 1) evs rest
    else if r.version_type = none ∨ r.version_type = some "alpha" then
      mrLoop loader target checks best counter (visited + 1) evs rest
    else
      match mrCompare target r.game_versions with
      | none => (FetchResult.pythonError, visited + 1, evs)
      | some (s, version) =>
        if s = VersionCompareStatus.Consistent ∨ s = VersionCompareStatus.OlderMinor then
          match best with
          | none =>
            if checks ≤ (0 : Int) then (mrStop (some (version, r)), visited + 1, evs)
            else mrLoop loader target checks (some (version, r)) 0 (visited + 1) evs rest
          | some (lv, sf) =>
            match version, lv with
            | some vstr, some lvstr =>
              let s2 := compare_game_version_str vstr lvstr
              let adopt := s2 = VersionCompareStatus.OlderMinor ∨
                s2 = VersionCompareStatus.OlderMajor ∨
                (s2 = VersionCompareStatus.Consistent ∧ sf.version_type = some "beta" ∧
                  r.version_type = some "release")
              let evs' := if s2 = VersionCompareStatus.Consistent
                then evs ++ [⟨sf.version_type, r.version_type, decide adopt⟩] else evs
              if adopt then
                if checks ≤ (0 : Int) then (mrStop (some (version, r)), visited + 1, evs')
                else mrLoop loader target checks (some (version, r)) 0 (visited + 1) evs' rest
              else
                if checks ≤ counter + 1 then (mrStop best, visited + 1, evs')
                else mrLoop loader target checks best (counter + 1) (visited + 1) evs' rest
            | _, _ => (FetchResult.pythonError, visited + 1, evs)
        else
          match best with
          | some _ =>
            if checks ≤ counter + 1 then (mrStop best, visited + 1, evs)
            else mrLoop loader target checks best (counter + 1) (visited + 1) evs rest
          | none =>
            if checks ≤ counter then (mrStop best, visited + 1, evs)
            else mrLoop loader target checks best counter (visited + 1) evs rest

/-- Instrumented run of the `fetch_metadata_for_mrmod` resolution loop. -/
def mrRun {α : Type} (loader target : String) (checks : Int)
    (versions : List (MRVersion α)) : FetchResult α × Nat × List MRTieEvent :=
  mrLoop loader target checks none (-1) 0 [] versions

/-- The resolution outcome of `fetch_metadata_for_mrmod` of `workflow.py` on a
version-entry stream (`loader` is `config['mod_loader']`). -/
def fetch_metadata_for_mrmod {α : Type} (loader target : String) (checks : Int)
    (versions : List (MRVersion α)) : FetchResult α :=
  (mrRun loader target checks versions).1

/-- Scripted behaviour of the server for one request of `_download_single`
(`downloader.py`).  `connError` is an `aiohttp.ClientError` or
`asyncio.TimeoutError` raised before any body bytes arrive; `httpError` is a
non-2xx, non-416 status (`raise_for_status` turns it into a
`ClientResponseError`, which is a `ClientError`, so it takes the same retry
path); `ok` streams the given chunks of bytes and, when `interrupted` is
true, raises a transient error after they have been written. -/
inductive ServerResp
  | connError
  | status416
  | httpError
  | ok (chunks : List (List Nat)) (interrupted : Bool)
deriving DecidableEq, Repr

/-- Whether a scripted response takes the transient-failure retry path. -/
def ServerResp.isTransient : ServerResp → Bool
  | ServerResp.connError => true
  | ServerResp.httpError => true
  | ServerResp.ok _ i => i
  | ServerResp.status416 => false

/-- File-system state seen by `_download_single`: the contents of
`<save_path>.tmp` and of `save_path` (`none` = the file does not exist). -/
structure FS where
  temp : Option (List Nat)
  dest : Option (List Nat)
deriving DecidableEq, Repr

/-- Python exception class returned by the outer handler of
`_download_single`. -/
inductive ExnKind
  | clientError
  | fileNotFound
  | attributeError
deriving DecidableEq, Repr

/-- Outcome of `_download_single`: `success` is the `return True` after the
rename; `alreadyExists` is the early `RuntimeError` return; `errorReturned`
is the `return e` of the outer `except` handler; `noneReturned` is the
implicit `None` when every attempt was consumed by a 416 `continue`;
`oracleShort` is a model artefact (the script ran out of responses). -/
inductive DLOutcome
  | success
  | alreadyExists
  | errorReturned (k : ExnKind)
  | noneReturned
  | oracleShort
deriving DecidableEq, Repr

/-- Observable result of a `_download_single` call: outcome, final file-system
state, the backoff sleeps performed (`2 ** attempt` seconds each), and the
`Range` offset of every request issued (`none` = no `Range` header). -/
structure DLResult where
  outcome : DLOutcome
  fs : FS
  sleeps : List Nat
  requests : List (Option Nat)
deriving DecidableEq, Repr

/-- The retry loop of `_download_single`.  `rangeHeader` and `downloadedSize`
are fixed before the loop and never updated inside it (exactly as in the
source, where `headers["Range"]` and `downloaded_size` are written once);
`remaining` counts the attempts left (`max_retries - attempt`), `attempt` is
the current index, `bar` tells whether the tqdm progress bar exists (it
decides which exception the final-attempt cleanup raises).  Cleanup on the
final transient failure removes the temp file, then closes the bar — a
still-`None` bar raises `AttributeError` into the outer handler, which
returns it after its own cleanup. -/
def downloadLoop (rangeHeader : Option Nat) (downloadedSize : Nat) :
    Nat → Nat → FS → Bool → List Nat → List (Option Nat) → List ServerResp → DLResult
  | 0, _, fs, _, sleeps, reqs, _ => ⟨DLOutcome.noneReturned, fs, sleeps, reqs⟩
  | _ + 1, _, fs, _, sleeps, reqs, [] => ⟨DLOutcome.oracleShort, fs, sleeps, reqs⟩
  | remaining + 1, attempt, fs, bar, sleeps, reqs, resp :: oracle =>
    let reqs' := reqs ++ [rangeHeader]
    match resp with
    | ServerResp.status416 =>
      match fs.temp with
      | some _ => downloadLoop rangeHeader downloadedSize remaining (attempt + 1)
          ⟨none, fs.dest⟩ bar sleeps reqs' oracle
      | none => ⟨DLOutcome.errorReturned ExnKind.fileNotFound, fs, sleeps, reqs'⟩
    | ServerResp.connError =>
      if remaining = 0 then
        let fs' : FS := ⟨none, fs.dest⟩
        if bar then ⟨DLOutcome.errorReturned ExnKind.clientError, fs', sleeps, reqs'⟩
        else ⟨DLOutcome.errorReturned ExnKind.attributeError, fs', sleeps, reqs'⟩
      else downloadLoop rangeHeader downloadedSize remaining (attempt + 1) fs bar
        (sleeps ++ [2 ^ attempt]) reqs' oracle
    | ServerResp.httpError =>
      if remaining = 0 then
        let fs' : FS := ⟨none, fs.dest⟩
        if bar then ⟨DLOutcome.errorReturned ExnKind.clientError, fs', sleeps, reqs'⟩
        else ⟨DLOutcome.errorReturned ExnKind.attributeError, fs', sleeps, reqs'⟩
      else downloadLoop rangeHeader downloadedSize remaining (attempt + 1) fs bar
        (sleeps ++ [2 ^ attempt]) reqs' oracle
    | ServerResp.ok chunks interrupted =>
      let base := if downloadedSize > 0 then fs.temp.getD [] else []
      let temp' := base ++ chunks.flatten
      let fs' : FS := ⟨some temp', fs.dest⟩
      if interrupted then
        if remaining = 0 then
          ⟨DLOutcome.errorReturned ExnKind.clientError, ⟨none, fs.dest⟩, sleeps, reqs'⟩
        else downloadLoop rangeHeader downloadedSize remaining (attempt + 1) fs' true
          (sleeps ++ [2 ^ attempt]) reqs' oracle
      else ⟨DLOutcome.success, ⟨none, some temp'⟩, sleeps, reqs'⟩

/-- The function `_download_single` of `downloader.py`, as an interpreter over
a scripted response list.  The destination-exists early return, then the
one-time computation of `downloaded_size` and of the `Range` header from the
temp file, then the retry loop.  Only the `Range` entry of the headers dict
is modelled; the progress-bar display and total-size bookkeeping have no
effect on control flow or files and are reduced to the bar's existence
flag. -/
def download_single (fs0 : FS) (maxRetries : Nat) (oracle : List ServerResp) : DLResult :=
  if fs0.dest.isSome then ⟨DLOutcome.alreadyExists, fs0, [], []⟩
  else
    let downloadedSize := (fs0.temp.getD []).length
    let rangeHeader := if fs0.temp.isSome then some downloadedSize else none
    downloadLoop rangeHeader downloadedSize maxRetries 0 fs0 false [] [] oracle

/-- A status the resolution loops accept as a match (`Consistent` or
`OlderMinor`). -/
def acceptableStatus (s : VersionCompareStatus) : Prop :=
  s = VersionCompareStatus.Consistent ∨ s = VersionCompareStatus.OlderMinor

instance (s : VersionCompareStatus) : Decidable (acceptableStatus s) := by
  unfold acceptableStatus; infer_instance

/-- The fuzzy status the GitHub loop computes for a release. -/
def ghStatusOf {α : Type} (target : String) (r : GHRelease α) : VersionCompareStatus :=
  (fuzzy_compare_game_version target [r.tag_name, r.name]).1

/-- The matched version string the GitHub loop computes for a release. -/
def ghVersionOf {α : Type} (target : String) (r : GHRelease α) : Option String :=
  (fuzzy_compare_game_version target [r.tag_name, r.name]).2

/-- A release the GitHub loop skips before any version comparison. -/
def GHSkipped {α : Type} (r : GHRelease α) : Prop :=
  r.prerelease = true ∨ r.assets.length = 0

instance {α : Type} (r : GHRelease α) : Decidable (GHSkipped r) := by
  unfold GHSkipped; infer_instance

/-- The status the Modrinth loop computes for an entry (`InvalidVersion` in
the unreachable crashing case). -/
def mrStatusOf {α : Type} (target : String) (v : MRVersion α) : VersionCompareStatus :=
  match mrCompare target v.game_versions with
  | some (s, _) => s
  | none => VersionCompareStatus.InvalidVersion

/-- The matched version string the Modrinth loop computes for an entry. -/
def mrVersionOf {α : Type} (target : String) (v : MRVersion α) : Option String :=
  match mrCompare target v.game_versions with
  | some (_, ver) => ver
  | none => none

/-- An entry the Modrinth loop skips before any version comparison. -/
def MRSkipped {α : Type} (loader : String) (v : MRVersion α) : Prop :=
  ¬ loader ∈ v.loaders ∨ v.files.length = 0 ∨ v.game_versions.length = 0 ∨
  v.version_type = none ∨ v.version_type = some "alpha"

instance {α : Type} (loader : String) (v : MRVersion α) : Decidable (MRSkipped loader v) := by
  unfold MRSkipped; infer_instance

/-- Release quality of a GitHub release is strictly better exactly when the
new candidate is a release and the current best a pre-release. -/
def ghStrictlyBetter (newPre bestPre : Bool) : Bool :=
  !newPre && bestPre

/-- Release-quality rank of a Modrinth `version_type`:
release > beta > alpha (a missing type ranks like alpha). -/
def mrRank : Option String → Nat
  | some t => if t = "release" then 2 else if t = "beta" then 1 else 0
  | none => 0

/-- Modrinth release quality is strictly better when the rank is larger. -/
def mrStrictlyBetter (newT bestT : Option String) : Bool :=
  decide (mrRank bestT < mrRank newT)

/-- A `version_type` value the Modrinth API can produce (or a missing key). -/
def MRTypeOK {α : Type} (v : MRVersion α) : Prop :=
  v.version_type = none ∨ v.version_type = some "alpha" ∨
  v.version_type = some "beta" ∨ v.version_type = some "release"

instance {α : Type} (v : MRVersion α) : Decidable (MRTypeOK v) := by
  unfold MRTypeOK; infer_instance

/-- Numeric value of the best (lowest-ordinal) status among the processed
matches, starting from `InvalidVersion` (value 5). -/
def statusMinVal (evs : List FuzzyEvent) : Nat :=
  (evs.map fun e => e.status.val).foldl Nat.min 5

/-- The match text of the last adopted event (what `version_res` holds). -/
def lastAdoptedMatch (evs : List FuzzyEvent) : Option String :=
  ((evs.filter fun e => e.adopted).getLast?).map FuzzyEvent.m

/-- Correctness of a single fuzzy-scan adoption decision: a strictly better
status is always adopted, a strictly worse one never, and a tie (on a
non-`InvalidVersion` status) is adopted exactly when the current best compares
as `NewerMinor` or higher (ordinal at least 3) against the new match — i.e.
the tie-break prefers the newer match, not the first one. -/
def FuzzyEventOK (e : FuzzyEvent) : Prop :=
  (e.status.val < e.prevRes.val → e.adopted = true) ∧
  (e.prevRes.val < e.status.val → e.adopted = false) ∧
  (e.status.val = e.prevRes.val → e.status ≠ VersionCompareStatus.InvalidVersion →
    (e.prevBest = none → e.adopted = true) ∧
    (∀ vr, e.prevBest = some vr →
      (e.adopted = true ↔ 3 ≤ (compare_game_version_str vr e.m).val))) ∧
  (e.status.val = e.prevRes.val → e.status = VersionCompareStatus.InvalidVersion →
    e.adopted = false)

/-- Declarative description of a finished fuzzy scan: the result status is
the minimum ordinal among the processed matches, only the last processed
match may be `Consistent` (the scan short-circuits), the result match is the
last adopted one, and every adoption decision followed the better/worse/tie
rule of `FuzzyEventOK`. -/
def FuzzyResultOK (final : VersionCompareStatus) (vres : Option String)
    (evs : List FuzzyEvent) : Prop :=
  final.val = statusMinVal evs ∧
  (∀ e ∈ evs.dropLast, e.status ≠ VersionCompareStatus.Consistent) ∧
  vres = lastAdoptedMatch evs ∧
  (∀ e ∈ evs, FuzzyEventOK e)

/-! ## Helper lemmas about parsing and comparison -/


theorem pyIntList_length (ids : List (List Char)) (l : List Int)
    (h : pyIntList ids = some l) : l.length = ids.length := by
  induction ids generalizing l with
  | nil => simp [pyIntList] at h; simp [← h]
  | cons s rest ih =>
    simp only [pyIntList] at h
    cases hs : pyInt s with
    | none => rw [hs] at h; simp at h
    | some i =>
      rw [hs] at h
      cases hr : pyIntList rest with
      | none => rw [hr] at h; simp at h
      | some l2 => rw [hr] at h; simp at h; subst h; simp [ih l2 hr]

theorem check_valid_shape (s : String) (v : List Int)
    (h : check_valid_game_version s = some v) :
    (∃ m : Int, v = [1, m]) ∨ (∃ m p : Int, v = [1, m, p]) := by
  unfold check_valid_game_version at h
  dsimp only at h
  split at h
  · exact absurd h (by simp)
  · rename_i hlen
    cases hpl : pyIntList (splitDots s.data) with
    | none => rw [hpl] at h; exact absurd h (by simp)
    | some l =>
      rw [hpl] at h
      simp only [] at h
      split at h
      · exact absurd h (by simp)
      · rename_i hh
        have hv : l = v := by injection h
        subst hv
        have hlth := pyIntList_length _ _ hpl
        simp only [Bool.or_eq_true, decide_eq_true_eq, not_or, not_lt] at hlen
        obtain ⟨h2, h3⟩ := hlen
        rw [← hlth] at h2 h3
        simp only [ne_eq, not_not] at hh
        rcases l with _ | ⟨x, _ | ⟨m, _ | ⟨p, t⟩⟩⟩
        · simp at h2
        · simp at h2
        · left; refine ⟨m, ?_⟩; simp [List.headD] at hh; rw [hh]
        · rcases t with _ | ⟨y, t2⟩
          · right; refine ⟨m, p, ?_⟩; simp [List.headD] at hh; rw [hh]
          · simp at h3

theorem cgv_22 (a b : String) (m n : Int)
    (ha : check_valid_game_version a = some [1, m])
    (hb : check_valid_game_version b = some [1, n]) :
    compare_game_version_str a b =
      if m = n then VersionCompareStatus.Consistent
      else if m > n then VersionCompareStatus.OlderMajor
      else VersionCompareStatus.NewerMajor := by
  simp only [compare_game_version_str, compare_game_version, GVArg.resolve, ha, hb,
    List.getElem?_cons_succ, List.getElem?_cons_zero]
  by_cases hmn : m = n
  · subst hmn; simp
  · have hne : ¬([1, m] = [1, n]) := by simp [hmn]
    simp [hne, hmn]

theorem cgv_23 (a b : String) (m n p : Int)
    (ha : check_valid_game_version a = some [1, m])
    (hb : check_valid_game_version b = some [1, n, p]) :
    compare_game_version_str a b =
      if m = n then
        (if 0 > p then VersionCompareStatus.OlderMinor else VersionCompareStatus.NewerMinor)
      else if m > n then VersionCompareStatus.OlderMajor
      else VersionCompareStatus.NewerMajor := by
  simp only [compare_game_version_str, compare_game_version, GVArg.resolve, ha, hb,
    List.getElem?_cons_succ, List.getElem?_cons_zero]
  have hne : ¬([1, m] = [1, n, p]) := by simp
  by_cases hmn : m = n
  · subst hmn; simp [hne]
  · simp [hne, hmn]

theorem cgv_32 (a b : String) (m p n : Int)
    (ha : check_valid_game_version a = some [1, m, p])
    (hb : check_valid_game_version b = some [1, n]) :
    compare_game_version_str a b =
      if m = n then
        (if p > 0 then VersionCompareStatus.OlderMinor else VersionCompareStatus.NewerMinor)
      else if m > n then VersionCompareStatus.OlderMajor
      else VersionCompareStatus.NewerMajor := by
  simp only [compare_game_version_str, compare_game_version, GVArg.resolve, ha, hb,
    List.getElem?_cons_succ, List.getElem?_cons_zero]
  have hne : ¬([1, m, p] = [1, n]) := by simp
  by_cases hmn : m = n
  · subst hmn; simp [hne]
  · simp [hne, hmn]

theorem cgv_33 (a b : String) (m p n q : Int)
    (ha : check_valid_game_version a = some [1, m, p])
    (hb : check_valid_game_version b = some [1, n, q]) :
    compare_game_version_str a b =
      if m = n ∧ p = q then VersionCompareStatus.Consistent
      else if m = n then
        (if p > q then VersionCompareStatus.OlderMinor else VersionCompareStatus.NewerMinor)
      else if m > n then VersionCompareStatus.OlderMajor
      else VersionCompareStatus.NewerMajor := by
  simp only [compare_game_version_str, compare_game_version, GVArg.resolve, ha, hb,
    List.getElem?_cons_succ, List.getElem?_cons_zero]
  by_cases hmn : m = n
  · subst hmn
    by_cases hpq : p = q
    · subst hpq; simp
    · have hne : ¬([1, m, p] = [1, m, q]) := by simp [hpq]
      simp [hne, hpq]
  · have hne : ¬([1, m, p] = [1, n, q]) := by simp [hmn]
    simp [hne, hmn]

theorem cgv_str_invalid_left (a b : String) (ha : check_valid_game_version a = none) :
    compare_game_version_str a b = VersionCompareStatus.InvalidVersion := by
  simp only [compare_game_version_str, compare_game_version, GVArg.resolve, ha]

theorem cgv_str_invalid_right (a b : String) (v1 : List Int)
    (ha : check_valid_game_version a = some v1) (hb : check_valid_game_version b = none) :
    compare_game_version_str a b = VersionCompareStatus.InvalidVersion := by
  simp only [compare_game_version_str, compare_game_version, GVArg.resolve, ha, hb]


theorem cgv_str_equal (a b : String) (v : List Int)
    (ha : check_valid_game_version a = some v) (hb : check_valid_game_version b = some v) :
    compare_game_version_str a b = VersionCompareStatus.Consistent := by
  simp only [compare_game_version_str, compare_game_version, GVArg.resolve, ha, hb, if_pos]

/-! ## Claim C1 -/

/-- C1, counterexample.  "1.21" and "1.21.0" parse to lists that normalise to
the same 3-tuple, yet `compare_game_version` does not return `Consistent` on
them (it returns `NewerMinor`): the equality test runs before the patch
default is applied. -/
theorem c1_counterexample :
    check_valid_game_version "1.21" = some [1, 21] ∧
    check_valid_game_version "1.21.0" = some [1, 21, 0] ∧
    normalize3 [1, 21] = normalize3 [1, 21, 0] ∧
    compare_game_version_str "1.21" "1.21.0" ≠ VersionCompareStatus.Consistent := by decide

/-- C1, amended.  `compare_game_version` returns `Consistent` for every pair
of version strings that parse to the same list; two strings that parse to the
same normalized 3-tuple but with the patch explicit on only one side compare
as `NewerMinor` in both orders; in particular
`compare_game_version("1.21", "1.21.0") = NewerMinor`. -/
theorem c1_consistency_amended :
    (∀ s1 s2 : String, ∀ v : List Int,
      check_valid_game_version s1 = some v → check_valid_game_version s2 = some v →
      compare_game_version_str s1 s2 = VersionCompareStatus.Consistent) ∧
    (∀ s1 s2 : String, ∀ m : Int,
      check_valid_game_version s1 = some [1, m] →
      check_valid_game_version s2 = some [1, m, 0] →
      compare_game_version_str s1 s2 = VersionCompareStatus.NewerMinor ∧
      compare_game_version_str s2 s1 = VersionCompareStatus.NewerMinor) ∧
    compare_game_version_str "1.21" "1.21.0" = VersionCompareStatus.NewerMinor := by
  refine ⟨fun s1 s2 v h1 h2 => cgv_str_equal s1 s2 v h1 h2, fun s1 s2 m h1 h2 => ?_, by decide⟩
  rw [cgv_23 s1 s2 m m 0 h1 h2, cgv_32 s2 s1 m 0 m h2 h1]
  simp

/-- C1, witness: the amended theorem applied at "1.21.3"/"1.21.3" (equal
parses) and at "1.21"/"1.21.0" (same normalized tuple, different lengths). -/
theorem c1_witness :
    compare_game_version_str "1.21.3" "1.21.3" = VersionCompareStatus.Consistent ∧
    compare_game_version_str "1.21" "1.21.0" = VersionCompareStatus.NewerMinor :=
  ⟨c1_consistency_amended.1 "1.21.3" "1.21.3" [1, 21, 3] (by decide) (by decide),
   (c1_consistency_amended.2.1 "1.21" "1.21.0" 21 (by decide) (by decide)).1⟩

/-! ## Claim C4 -/

/-- C4, counterexample.  On the text "Release for MC 1.20.4 (stable)" with
target "1.20", `fuzzy_compare_game_version` does not return status
`OlderMinor`: the target (patch 0) has the smaller patch, and the smaller
patch side reports `NewerMinor`. -/
theorem c4_counterexample :
    fuzzy_compare_game_version "1.20" ["Release for MC 1.20.4 (stable)"] ≠
      (VersionCompareStatus.OlderMinor, some "1.20.4") := by decide

/-- C4, amended.  The fuzzy scan of "Release for MC 1.20.4 (stable)" against
target "1.20" extracts the single match "1.20.4" and classifies it as
`NewerMinor` (the candidate is newer than the target within the same
minor family). -/
theorem c4_fuzzy_scenario_amended :
    fuzzy_compare_game_version "1.20" ["Release for MC 1.20.4 (stable)"] =
      (VersionCompareStatus.NewerMinor, some "1.20.4") ∧
    findAll "Release for MC 1.20.4 (stable)" = ["1.20.4"] := by decide

/-! ## Claim C5 -/

/-- C5, counterexample.  On the pair ("1.21", "1.21.0") both directions of
`compare_game_version` return `NewerMinor`, which is neither its own mirror
nor one of the symmetric outcomes the claim allows. -/
theorem c5_counterexample :
    compare_game_version_str "1.21" "1.21.0" = VersionCompareStatus.NewerMinor ∧
    compare_game_version_str "1.21.0" "1.21" = VersionCompareStatus.NewerMinor ∧
    mirrorStatus VersionCompareStatus.NewerMinor ≠ VersionCompareStatus.NewerMinor ∧
    VersionCompareStatus.NewerMinor ≠ VersionCompareStatus.Consistent ∧
    VersionCompareStatus.NewerMinor ≠ VersionCompareStatus.InvalidVersion := by decide

/-- C5, amended.  For all version strings `a` and `b`,
`compare_game_version(a,b)` and `compare_game_version(b,a)` are mirror
outcomes (OlderMinor and NewerMinor swapped, OlderMajor and NewerMajor
swapped, `Consistent` and `InvalidVersion` symmetric) — except for the
degenerate pairs whose parses are unequal lists normalising to the same
3-tuple (patch explicit on exactly one side), where both directions return
`NewerMinor`. -/
theorem c5_antisymmetry_amended (a b : String) :
    (degeneratePair a b = true →
      compare_game_version_str a b = VersionCompareStatus.NewerMinor ∧
      compare_game_version_str b a = VersionCompareStatus.NewerMinor) ∧
    (degeneratePair a b = false →
      compare_game_version_str b a = mirrorStatus (compare_game_version_str a b)) := by
  cases hva : check_valid_game_version a with
  | none =>
    have hd : degeneratePair a b = false := by simp [degeneratePair, hva]
    refine ⟨fun h => by rw [hd] at h; exact absurd h (by simp), fun _ => ?_⟩
    rw [cgv_str_invalid_left a b hva]
    cases hvb : check_valid_game_version b with
    | none => rw [cgv_str_invalid_left b a hvb]; rfl
    | some v2 => rw [cgv_str_invalid_right b a v2 hvb hva]; rfl
  | some v1 =>
    cases hvb : check_valid_game_version b with
    | none =>
      have hd : degeneratePair a b = false := by simp [degeneratePair, hva, hvb]
      refine ⟨fun h => by rw [hd] at h; exact absurd h (by simp), fun _ => ?_⟩
      rw [cgv_str_invalid_right a b v1 hva hvb, cgv_str_invalid_left b a hvb]; rfl
    | some v2 =>
      have hdeg : degeneratePair a b =
          (decide (v1 ≠ v2) && decide (normalize3 v1 = normalize3 v2)) := by
        simp only [degeneratePair, hva, hvb]
      rcases check_valid_shape a v1 hva with ⟨m, rfl⟩ | ⟨m, p, rfl⟩ <;>
        rcases check_valid_shape b v2 hvb with ⟨n, rfl⟩ | ⟨n, q, rfl⟩
      · -- [1, m] vs [1, n]
        rw [cgv_22 a b m n hva hvb, cgv_22 b a n m hvb hva]
        simp only [normalize3] at hdeg
        constructor
        · intro h; rw [hdeg] at h; simp at h
        · intro _
          rcases lt_trichotomy m n with hlt | heq | hgt
          · have e1 : ¬ m = n := by omega
            have e2 : ¬ m > n := by omega
            have e3 : ¬ n = m := by omega
            have e4 : n > m := by omega
            simp [e1, e2, e3, e4, mirrorStatus]
          · subst heq; simp [mirrorStatus]
          · have e1 : ¬ m = n := by omega
            have e3 : ¬ n = m := by omega
            have e4 : ¬ n > m := by omega
            simp [e1, hgt, e3, e4, mirrorStatus]
      · -- [1, m] vs [1, n, q]
        rw [cgv_23 a b m n q hva hvb, cgv_32 b a n q m hvb hva]
        simp only [normalize3] at hdeg
        constructor
        · intro h
          rw [hdeg] at h
          simp at h
          obtain ⟨h1, h2⟩ := h
          subst h1
          have hq : q = 0 := by omega
          subst hq
          simp
        · intro h
          rw [hdeg] at h
          simp at h
          rcases lt_trichotomy m n with hlt | heq | hgt
          · have e1 : ¬ m = n := by omega
            have e2 : ¬ m > n := by omega
            have e3 : ¬ n = m := by omega
            have e4 : n > m := by omega
            simp [e1, e2, e3, e4, mirrorStatus]
          · subst heq
            have hq : ¬ q = 0 := by
              intro h0
              exact absurd (h rfl) (by omega)
            rcases lt_trichotomy q 0 with hlt | heq0 | hgt
            · have e1 : 0 > q := by omega
              have e2 : ¬ q > 0 := by omega
              simp [e1, e2, mirrorStatus]
            · exact absurd heq0 hq
            · have e1 : ¬ 0 > q := by omega
              simp [e1, hgt, mirrorStatus]
          · have e1 : ¬ m = n := by omega
            have e3 : ¬ n = m := by omega
            have e4 : ¬ n > m := by omega
            simp [e1, hgt, e3, e4, mirrorStatus]
      · -- [1, m, p] vs [1, n]
        rw [cgv_32 a b m p n hva hvb, cgv_23 b a n m p hvb hva]
        simp only [normalize3] at hdeg
        constructor
        · intro h
          rw [hdeg] at h
          simp at h
          obtain ⟨h1, h2⟩ := h
          subst h1
          have hp : p = 0 := by omega
          subst hp
          simp
        · intro h
          rw [hdeg] at h
          simp at h
          rcases lt_trichotomy m n with hlt | heq | hgt
          · have e1 : ¬ m = n := by omega
            have e2 : ¬ m > n := by omega
            have e3 : ¬ n = m := by omega
            have e4 : n > m := by omega
            simp [e1, e2, e3, e4, mirrorStatus]
          · subst heq
            have hp : ¬ p = 0 := by
              intro h0
              exact absurd (h rfl) (by omega)
            rcases lt_trichotomy p 0 with hlt | heq0 | hgt
            · have e1 : ¬ p > 0 := by omega
              have e2 : 0 > p := by omega
              simp [e1, e2, mirrorStatus]
            · exact absurd heq0 hp
            · have e2 : ¬ 0 > p := by omega
              simp [hgt, e2, mirrorStatus]
          · have e1 : ¬ m = n := by omega
            have e3 : ¬ n = m := by omega
            have e4 : ¬ n > m := by omega
            simp [e1, hgt, e3, e4, mirrorStatus]
      · -- [1, m, p] vs [1, n, q]
        rw [cgv_33 a b m p n q hva hvb, cgv_33 b a n q m p hvb hva]
        simp only [normalize3] at hdeg
        constructor
        · intro h; rw [hdeg] at h; simp at h; omega
        · intro _
          rcases lt_trichotomy m n with hlt | heq | hgt
          · have e1 : ¬ (m = n ∧ p = q) := by omega
            have e2 : ¬ m = n := by omega
            have e3 : ¬ (n = m ∧ q = p) := by omega
            have e4 : ¬ n = m := by omega
            have e5 : ¬ m > n := by omega
            have e6 : n > m := by omega
            simp [e1, e2, e3, e4, e5, e6, mirrorStatus]
          · subst heq
            rcases lt_trichotomy p q with hlt | heqp | hgt
            · have e1 : ¬ p = q := by omega
              have e3 : ¬ q = p := by omega
              have e5 : ¬ p > q := by omega
              have e6 : q > p := by omega
              simp [e1, e3, e5, e6, mirrorStatus]
            · subst heqp; simp [mirrorStatus]
            · have e1 : ¬ p = q := by omega
              have e3 : ¬ q = p := by omega
              have e6 : ¬ q > p := by omega
              simp [e1, e3, hgt, e6, mirrorStatus]
          · have e1 : ¬ (m = n ∧ p = q) := by omega
            have e2 : ¬ m = n := by omega
            have e3 : ¬ (n = m ∧ q = p) := by omega
            have e4 : ¬ n = m := by omega
            have e6 : ¬ n > m := by omega
            simp [e1, e2, e3, e4, hgt, e6, mirrorStatus]

/-- C5, witness: the amended theorem applied at the degenerate pair
("1.21", "1.21.0") and at the ordinary pair ("1.21", "1.20"). -/
theorem c5_witness :
    (compare_game_version_str "1.21" "1.21.0" = VersionCompareStatus.NewerMinor ∧
      compare_game_version_str "1.21.0" "1.21" = VersionCompareStatus.NewerMinor) ∧
    compare_game_version_str "1.20" "1.21" =
      mirrorStatus (compare_game_version_str "1.21" "1.20") :=
  ⟨(c5_antisymmetry_amended "1.21" "1.21.0").1 (by decide),
   (c5_antisymmetry_amended "1.21" "1.20").2 (by decide)⟩

/-! ## Claim C10 -/

/-- C10, counterexample.  A call with both versions valid and equal minor
components in which the caller-supplied 2-element list is NOT mutated: when
the two lists are equal the function returns `Consistent` on the equality
fast path, before the patch-appending code runs. -/
theorem c10_counterexample :
    compare_game_version (GVArg.list [1, 21]) (GVArg.list [1, 21]) =
      some (VersionCompareStatus.Consistent, GVArg.list [1, 21], GVArg.list [1, 21]) ∧
    GVArg.list ([1, 21] : List Int) ≠ GVArg.list [1, 21, 0] := by decide

/-- C10, amended.  `compare_game_version` is not side-effect-free on its
inputs: whenever both versions are valid with equal minor components and the
two values are unequal as lists (so the equality fast path does not return
`Consistent`), a caller-supplied 2-element list argument is mutated in place
by appending 0 — on either side.  In particular the parsed target list that
`compare_game_versions` passes repeatedly is extended by one comparison,
changing the outcome of later comparisons in the same scan: scanning
["1.21.5", "1.21"] with target "1.21" yields (`NewerMinor`, "1.21.5"),
although a fresh comparison of "1.21" with "1.21" is `Consistent`. -/
theorem c10_mutation_amended :
    (∀ m p : Int,
      (compare_game_version (GVArg.list [1, m]) (GVArg.list [1, m, p])).map
          (fun r => (r.2.1, r.2.2)) =
        some (GVArg.list [1, m, 0], GVArg.list [1, m, p])) ∧
    (∀ m p : Int,
      (compare_game_version (GVArg.list [1, m, p]) (GVArg.list [1, m])).map
          (fun r => (r.2.1, r.2.2)) =
        some (GVArg.list [1, m, p], GVArg.list [1, m, 0])) ∧
    compare_game_versions (GVArg.str "1.21") ["1.21.5", "1.21"] =
      some (CGVSRet.pair VersionCompareStatus.NewerMinor (some "1.21.5")) ∧
    compare_game_version_str "1.21" "1.21" = VersionCompareStatus.Consistent := by
  refine ⟨fun m p => ?_, fun m p => ?_, by decide, by decide⟩
  · have hne : ¬(([1, m] : List Int) = [1, m, p]) := by simp
    simp [compare_game_version, GVArg.resolve, GVArg.update, hne]
  · have hne : ¬(([1, m, p] : List Int) = [1, m]) := by simp
    simp [compare_game_version, GVArg.resolve, GVArg.update, hne]

theorem statusMinVal_concat (evs : List FuzzyEvent) (ev : FuzzyEvent) :
    statusMinVal (evs ++ [ev]) = Nat.min (statusMinVal evs) ev.status.val := by
  simp [statusMinVal, List.foldl_append]

theorem lastAdoptedMatch_concat_true (evs : List FuzzyEvent) (ev : FuzzyEvent)
    (h : ev.adopted = true) :
    lastAdoptedMatch (evs ++ [ev]) = some ev.m := by
  simp [lastAdoptedMatch, List.filter_append, h, List.getLast?_concat]

theorem lastAdoptedMatch_concat_false (evs : List FuzzyEvent) (ev : FuzzyEvent)
    (h : ev.adopted = false) :
    lastAdoptedMatch (evs ++ [ev]) = lastAdoptedMatch evs := by
  simp [lastAdoptedMatch, List.filter_append, h]

theorem val_eq_zero_iff (s : VersionCompareStatus) :
    s.val = 0 ↔ s = VersionCompareStatus.Consistent := by
  cases s <;> simp [VersionCompareStatus.val]

theorem adoptDecision_lt (final res : VersionCompareStatus) (vres : Option String) (m : String)
    (h : res.val < final.val) : adoptDecision final res vres m = true := by
  rw [adoptDecision.eq_def, if_pos h]

theorem adoptDecision_gt (final res : VersionCompareStatus) (vres : Option String) (m : String)
    (h : final.val < res.val) : adoptDecision final res vres m = false := by
  rw [adoptDecision.eq_def, if_neg (by omega), if_neg (fun hh => by have := hh.1; omega)]

theorem adoptDecision_eq_none (final res : VersionCompareStatus) (vres : Option String)
    (m : String) (h : res.val = final.val) (hinv : res ≠ VersionCompareStatus.InvalidVersion)
    (hn : vres = none) : adoptDecision final res vres m = true := by
  subst hn
  rw [adoptDecision.eq_def, if_neg (by omega), if_pos ⟨h, hinv⟩]

theorem adoptDecision_eq_some (final res : VersionCompareStatus) (vres : Option String)
    (m vr : String) (h : res.val = final.val) (hinv : res ≠ VersionCompareStatus.InvalidVersion)
    (hv : vres = some vr) :
    (adoptDecision final res vres m = true ↔ 3 ≤ (compare_game_version_str vr m).val) := by
  subst hv
  rw [adoptDecision.eq_def, if_neg (by omega), if_pos ⟨h, hinv⟩]
  simp

theorem adoptDecision_invalid (final res : VersionCompareStatus) (vres : Option String)
    (m : String) (h : res.val = final.val) (hres : res = VersionCompareStatus.InvalidVersion) :
    adoptDecision final res vres m = false := by
  rw [adoptDecision.eq_def, if_neg (by omega), if_neg (fun hh => hh.2 hres)]

theorem adoptDecision_min (final res : VersionCompareStatus) (vres : Option String) (m : String) :
    (if adoptDecision final res vres m then res else final).val = Nat.min final.val res.val := by
  rcases Nat.lt_trichotomy res.val final.val with h | h | h
  · rw [adoptDecision_lt final res vres m h]; simp; omega
  · rcases Bool.eq_false_or_eq_true (adoptDecision final res vres m) with ha | ha <;>
      rw [ha] <;> simp <;> omega
  · rw [adoptDecision_gt final res vres m h]; simp; omega

theorem adoptDecision_eventOK (final res : VersionCompareStatus) (vres : Option String)
    (m : String) : FuzzyEventOK ⟨m, res, final, vres, adoptDecision final res vres m⟩ := by
  refine ⟨?_, ?_, ?_, ?_⟩ <;> dsimp only
  · exact fun h => adoptDecision_lt final res vres m h
  · exact fun h => adoptDecision_gt final res vres m h
  · intro heq hinv
    exact ⟨fun hn => adoptDecision_eq_none final res vres m heq hinv hn,
           fun vr hvr => adoptDecision_eq_some final res vres m vr heq hinv hvr⟩
  · intro heq hres
    exact adoptDecision_invalid final res vres m heq hres

theorem fuzzyInner_inv (ms : List String) :
    ∀ (v1 : List Int) (final : VersionCompareStatus) (vres : Option String)
      (evs : List FuzzyEvent),
      final ≠ VersionCompareStatus.Consistent →
      final.val = statusMinVal evs →
      (∀ e ∈ evs, e.status ≠ VersionCompareStatus.Consistent) →
      vres = lastAdoptedMatch evs →
      (∀ e ∈ evs, FuzzyEventOK e) →
      FuzzyResultOK (fuzzyInner v1 final vres evs ms).2.1
        (fuzzyInner v1 final vres evs ms).2.2.1 (fuzzyInner v1 final vres evs ms).2.2.2 ∧
      ((fuzzyInner v1 final vres evs ms).2.1 ≠ VersionCompareStatus.Consistent →
        ∀ e ∈ (fuzzyInner v1 final vres evs ms).2.2.2,
          e.status ≠ VersionCompareStatus.Consistent) := by
  induction ms with
  | nil =>
    intro v1 final vres evs hfin hmin hcons hlast hok
    refine ⟨⟨hmin, ?_, hlast, hok⟩, fun _ => hcons⟩
    exact fun e he => hcons e (List.dropLast_subset _ he)
  | cons m rest ih =>
    intro v1 final vres evs hfin hmin hcons hlast hok
    rw [fuzzyInner.eq_def]
    dsimp only
    rcases hP : cgvListStr v1 m with ⟨res, v1'⟩
    dsimp only
    have hevok : FuzzyEventOK ⟨m, res, final, vres, adoptDecision final res vres m⟩ :=
      adoptDecision_eventOK final res vres m
    have hmin' : (if adoptDecision final res vres m then res else final).val =
        statusMinVal (evs ++ [⟨m, res, final, vres, adoptDecision final res vres m⟩]) := by
      rw [statusMinVal_concat, ← hmin, adoptDecision_min]
    have hlast' : (if adoptDecision final res vres m then some m else vres) =
        lastAdoptedMatch (evs ++ [⟨m, res, final, vres, adoptDecision final res vres m⟩]) := by
      rcases Bool.eq_false_or_eq_true (adoptDecision final res vres m) with ha | ha
      · rw [ha, lastAdoptedMatch_concat_true evs ⟨m, res, final, vres, true⟩ rfl]
        simp
      · rw [ha, lastAdoptedMatch_concat_false evs ⟨m, res, final, vres, false⟩ rfl]
        exact hlast
    have hokall : ∀ e ∈ evs ++ [⟨m, res, final, vres, adoptDecision final res vres m⟩],
        FuzzyEventOK e := by
      intro e he
      rcases List.mem_append.mp he with h | h
      · exact hok e h
      · rw [List.mem_singleton.mp h]; exact hevok
    by_cases hc : (if adoptDecision final res vres m then res else final) =
        VersionCompareStatus.Consistent
    · rw [if_pos hc]
      refine ⟨⟨?_, ?_, hlast', hokall⟩, fun hne => absurd hc hne⟩
      · dsimp only
        rw [← hmin']
      · rw [List.dropLast_concat]
        exact hcons
    · rw [if_neg hc]
      have hresnc : res ≠ VersionCompareStatus.Consistent := by
        intro hres
        have h0 : res.val = 0 := by rw [hres]; rfl
        have hfv : final.val ≠ 0 := fun hh => hfin ((val_eq_zero_iff final).mp hh)
        have ha : adoptDecision final res vres m = true :=
          adoptDecision_lt final res vres m (by omega)
        rw [ha, if_pos rfl] at hc
        exact hc hres
      have hcons' : ∀ e ∈ evs ++ [⟨m, res, final, vres, adoptDecision final res vres m⟩],
          e.status ≠ VersionCompareStatus.Consistent := by
        intro e he
        rcases List.mem_append.mp he with h | h
        · exact hcons e h
        · rw [List.mem_singleton.mp h]; exact hresnc
      exact ih v1' _ _ _ hc hmin' hcons' hlast' hokall

theorem fuzzyOuter_inv (names : List String) :
    ∀ (v1 : List Int) (final : VersionCompareStatus) (vres : Option String)
      (evs : List FuzzyEvent),
      final ≠ VersionCompareStatus.Consistent →
      final.val = statusMinVal evs →
      (∀ e ∈ evs, e.status ≠ VersionCompareStatus.Consistent) →
      vres = lastAdoptedMatch evs →
      (∀ e ∈ evs, FuzzyEventOK e) →
      FuzzyResultOK (fuzzyOuter v1 final vres evs names).2.1
        (fuzzyOuter v1 final vres evs names).2.2.1 (fuzzyOuter v1 final vres evs names).2.2.2 := by
  induction names with
  | nil =>
    intro v1 final vres evs hfin hmin hcons hlast hok
    exact ⟨hmin, fun e he => hcons e (List.dropLast_subset _ he), hlast, hok⟩
  | cons name rest ih =>
    intro v1 final vres evs hfin hmin hcons hlast hok
    rw [fuzzyOuter.eq_def]
    dsimp only
    obtain ⟨hresOK, hcont⟩ :=
      fuzzyInner_inv (findAll name) v1 final vres evs hfin hmin hcons hlast hok
    by_cases hc : (fuzzyInner v1 final vres evs (findAll name)).2.1 =
        VersionCompareStatus.Consistent
    · rw [if_pos hc]
      exact hresOK
    · rw [if_neg hc]
      obtain ⟨hmin2, _, hlast2, hok2⟩ := hresOK
      exact ih _ _ _ _ hc hmin2 (hcont hc) hlast2 hok2

/-! ## Claim C6 -/

/-- C6, amended.  For every target version and list of candidate texts,
`fuzzy_compare_game_version` returns the match with the lowest comparison
ordinal seen and stops immediately when a `Consistent` match is found (no
match before the last processed one is `Consistent`); but when two matches
produce the same ordinal the first-encountered match is NOT always kept: the
new match replaces the current best exactly when the current best compares
as `NewerMinor` or higher against it (the tie-break prefers the newer
match).  The run's event log certifies every decision via `FuzzyEventOK`,
and the returned match is the last adopted event. -/
theorem c6_fuzzy_best_amended (version : String) (names : List String) :
    fuzzy_compare_game_version version names =
      ((fuzzyRun version names).1, (fuzzyRun version names).2.1) ∧
    (fuzzyRun version names).1.val = statusMinVal (fuzzyRun version names).2.2 ∧
    (∀ e ∈ (fuzzyRun version names).2.2.dropLast,
      e.status ≠ VersionCompareStatus.Consistent) ∧
    (fuzzyRun version names).2.1 = lastAdoptedMatch (fuzzyRun version names).2.2 ∧
    (∀ e ∈ (fuzzyRun version names).2.2, FuzzyEventOK e) := by
  refine ⟨rfl, ?_⟩
  unfold fuzzyRun
  cases hv : check_valid_game_version version with
  | none =>
    dsimp only
    refine ⟨by decide, by simp, rfl, by simp⟩
  | some v1 =>
    dsimp only
    have h := fuzzyOuter_inv names v1 VersionCompareStatus.InvalidVersion none []
      (by decide) (by decide) (by simp) rfl (by simp)
    exact ⟨h.1, h.2.1, h.2.2.1, h.2.2.2⟩

/-- C6, counterexample.  Scanning ["1.20.1", "1.20.2"] for target "1.21",
both matches compare `OlderMajor` (a tie), yet the scan returns the
second-encountered match "1.20.2", not the first: first match does not win
ties. -/
theorem c6_counterexample :
    (fuzzyRun "1.21" ["1.20.1", "1.20.2"]).2.2 =
      [⟨"1.20.1", VersionCompareStatus.OlderMajor, VersionCompareStatus.InvalidVersion,
        none, true⟩,
       ⟨"1.20.2", VersionCompareStatus.OlderMajor, VersionCompareStatus.OlderMajor,
        some "1.20.1", true⟩] ∧
    fuzzy_compare_game_version "1.21" ["1.20.1", "1.20.2"] =
      (VersionCompareStatus.OlderMajor, some "1.20.2") ∧
    (some "1.20.2" : Option String) ≠ some "1.20.1" := by decide

/-- C6, witness: the amended theorem applied at target "1.21" and texts
["1.20.1", "1.20.2"], including its per-event tie rule at the second
(adopted-on-tie) event. -/
theorem c6_witness :
    (fuzzyRun "1.21" ["1.20.1", "1.20.2"]).1.val =
      statusMinVal (fuzzyRun "1.21" ["1.20.1", "1.20.2"]).2.2 ∧
    (fuzzyRun "1.21" ["1.20.1", "1.20.2"]).2.1 =
      lastAdoptedMatch (fuzzyRun "1.21" ["1.20.1", "1.20.2"]).2.2 ∧
    FuzzyEventOK ⟨"1.20.2", VersionCompareStatus.OlderMajor,
      VersionCompareStatus.OlderMajor, some "1.20.1", true⟩ :=
  ⟨(c6_fuzzy_best_amended "1.21" ["1.20.1", "1.20.2"]).2.1,
   (c6_fuzzy_best_amended "1.21" ["1.20.1", "1.20.2"]).2.2.2.1,
   (c6_fuzzy_best_amended "1.21" ["1.20.1", "1.20.2"]).2.2.2.2
     ⟨"1.20.2", VersionCompareStatus.OlderMajor, VersionCompareStatus.OlderMajor,
      some "1.20.1", true⟩ (by decide)⟩

/-! ## Claims C3 and C7: the two resolution loops -/

theorem ghLoop_skip_front {α : Type} (target : String) (checks : Int) (hch : 0 < checks)
    (A : List (GHRelease α)) :
    ∀ (visited : Nat) (evs : List GHTieEvent) (rest : List (GHRelease α)),
      (∀ a ∈ A, GHSkipped a ∨ ¬ acceptableStatus (ghStatusOf target a)) →
      ghLoop target checks none (-1) visited evs (A ++ rest) =
        ghLoop target checks none (-1) (visited + A.length) evs rest := by
  induction A with
  | nil => intro visited evs rest _; simp
  | cons a A ih =>
    intro visited evs rest hA
    have ha := hA a (List.mem_cons_self a A)
    rw [List.cons_append, ghLoop.eq_def]
    dsimp only
    have step : ∀ (v' : Nat),
        v' = visited + 1 →
        ghLoop target checks none (-1) v' evs (A ++ rest) =
          ghLoop target checks none (-1) (visited + (a :: A).length) evs rest := by
      intro v' hv'
      rw [hv', ih (visited + 1) evs rest (fun x hx => hA x (List.mem_cons_of_mem a hx))]
      congr 1
      simp [List.length_cons]
      omega
    rcases ha with hskip | hunacc
    · rcases hskip with hpre | hassets
      · rw [if_pos hpre]
        exact step (visited + 1) rfl
      · by_cases hpre : a.prerelease = true
        · rw [if_pos hpre]
          exact step (visited + 1) rfl
        · rw [if_neg hpre, if_pos hassets]
          exact step (visited + 1) rfl
    · simp only [acceptableStatus, ghStatusOf] at hunacc
      by_cases hpre : a.prerelease = true
      · rw [if_pos hpre]
        exact step (visited + 1) rfl
      · rw [if_neg hpre]
        by_cases hassets : a.assets.length = 0
        · rw [if_pos hassets]
          exact step (visited + 1) rfl
        · rw [if_neg hassets, if_neg hunacc, if_neg (show ¬ checks ≤ (-1 : Int) by omega)]
          exact step (visited + 1) rfl

theorem ghLoop_count_after {α : Type} (target : String) (checks : Int)
    (C : List (GHRelease α)) :
    ∀ (j : Int) (visited : Nat) (evs : List GHTieEvent) (lv : Option String)
      (sf : GHRelease α),
      0 ≤ j → j < checks → checks - j ≤ (C.length : Int) →
      (∀ c ∈ C, ¬ GHSkipped c ∧ ¬ acceptableStatus (ghStatusOf target c)) →
      ghLoop target checks (some (lv, sf)) j visited evs C =
        (ghStop (some (lv, sf)), visited + (checks - j).toNat, evs) := by
  induction C with
  | nil =>
    intro j visited evs lv sf h0 hj hlen _
    exfalso
    simp at hlen
    omega
  | cons c C ih =>
    intro j visited evs lv sf h0 hj hlen hC
    obtain ⟨hnskip, hnacc⟩ := hC c (List.mem_cons_self c C)
    simp only [GHSkipped, not_or] at hnskip
    simp only [acceptableStatus, ghStatusOf] at hnacc
    rw [ghLoop.eq_def]
    dsimp only
    rw [if_neg hnskip.1, if_neg hnskip.2, if_neg hnacc]
    by_cases hstop : checks ≤ j + 1
    · rw [if_pos hstop]
      have ht : (checks - j).toNat = 1 := by omega
      rw [ht]
    · rw [if_neg hstop]
      rw [ih (j + 1) (visited + 1) evs lv sf (by omega) (by omega)
        (by simp at hlen ⊢; omega) (fun x hx => hC x (List.mem_cons_of_mem c hx))]
      have hv : visited + 1 + (checks - (j + 1)).toNat = visited + (checks - j).toNat := by
        omega
      rw [hv]

theorem ghRun_lookahead {α : Type} (target : String) (checks : Int)
    (A : List (GHRelease α)) (b : GHRelease α) (C : List (GHRelease α))
    (a0 : α) (tl : List α)
    (hA : ∀ a ∈ A, GHSkipped a ∨ ¬ acceptableStatus (ghStatusOf target a))
    (hbskip : ¬ GHSkipped b) (hbacc : acceptableStatus (ghStatusOf target b))
    (hC : ∀ c ∈ C, ¬ GHSkipped c ∧ ¬ acceptableStatus (ghStatusOf target c))
    (hch : 0 < checks) (hlen : checks ≤ (C.length : Int)) (hassets : b.assets = a0 :: tl) :
    (ghRun target checks (A ++ b :: C)).1 =
      FetchResult.success (ghVersionOf target b) a0 ∧
    (ghRun target checks (A ++ b :: C)).2.1 = A.length + 1 + checks.toNat := by
  unfold ghRun
  rw [ghLoop_skip_front target checks hch A 0 [] (b :: C) hA]
  simp only [GHSkipped, not_or] at hbskip
  simp only [acceptableStatus, ghStatusOf] at hbacc
  rw [ghLoop.eq_def]
  dsimp only
  rw [if_neg hbskip.1, if_neg hbskip.2, if_pos hbacc,
    if_neg (show ¬ checks ≤ (0 : Int) by omega)]
  rw [ghLoop_count_after target checks C 0 (0 + A.length + 1) []
    (fuzzy_compare_game_version target [b.tag_name, b.name]).2 b le_rfl hch
    (by omega) hC]
  constructor
  · simp [ghStop, hassets, ghVersionOf]
  · simp

theorem cgv_list_str_total (v1 : List Int) (s : String)
    (h : v1.length = 2 ∨ v1.length = 3) :
    ∃ st v1', compare_game_version (GVArg.list v1) (GVArg.str s) =
        some (st, GVArg.list v1', GVArg.str s) ∧ (v1'.length = 2 ∨ v1'.length = 3) := by
  have hsplit : (∃ x y : Int, v1 = [x, y]) ∨ (∃ x y z : Int, v1 = [x, y, z]) := by
    rcases h with h | h
    · left; exact List.length_eq_two.mp h
    · right; exact List.length_eq_three.mp h
  cases hs : check_valid_game_version s with
  | none =>
    refine ⟨VersionCompareStatus.InvalidVersion, v1, ?_, h⟩
    simp only [compare_game_version, GVArg.resolve, hs]
  | some v2 =>
    have hv2 := check_valid_shape s v2 hs
    rcases hsplit with ⟨x, y, rfl⟩ | ⟨x, y, z, rfl⟩ <;>
      rcases hv2 with ⟨n, rfl⟩ | ⟨n, p, rfl⟩
    · by_cases h1 : ([x, y] : List Int) = [1, n]
      · exact ⟨VersionCompareStatus.Consistent, [x, y],
          by simp only [compare_game_version, GVArg.resolve, hs, if_pos h1]; rfl,
          Or.inl (by simp)⟩
      · by_cases h2 : y = n
        · refine ⟨VersionCompareStatus.NewerMinor, [x, y, 0], ?_, Or.inr (by simp)⟩
          simp only [compare_game_version, GVArg.resolve, hs, if_neg h1,
            List.getElem?_cons_succ, List.getElem?_cons_zero]
          simp [h2, GVArg.update]
        · refine ⟨(if y > n then VersionCompareStatus.OlderMajor
            else VersionCompareStatus.NewerMajor), [x, y], ?_, Or.inl (by simp)⟩
          simp only [compare_game_version, GVArg.resolve, hs, if_neg h1,
            List.getElem?_cons_succ, List.getElem?_cons_zero]
          simp [h2, GVArg.update]
    · by_cases h1 : ([x, y] : List Int) = [1, n, p]
      · exact absurd h1 (by simp)
      · by_cases h2 : y = n
        · refine ⟨(if 0 > p then VersionCompareStatus.OlderMinor
            else VersionCompareStatus.NewerMinor), [x, y, 0], ?_, Or.inr (by simp)⟩
          simp only [compare_game_version, GVArg.resolve, hs, if_neg h1,
            List.getElem?_cons_succ, List.getElem?_cons_zero]
          simp [h2, GVArg.update]
        · refine ⟨(if y > n then VersionCompareStatus.OlderMajor
            else VersionCompareStatus.NewerMajor), [x, y], ?_, Or.inl (by simp)⟩
          simp only [compare_game_version, GVArg.resolve, hs, if_neg h1,
            List.getElem?_cons_succ, List.getElem?_cons_zero]
          simp [h2, GVArg.update]
    · by_cases h1 : ([x, y, z] : List Int) = [1, n]
      · exact absurd h1 (by simp)
      · by_cases h2 : y = n
        · refine ⟨(if z > 0 then VersionCompareStatus.OlderMinor
            else VersionCompareStatus.NewerMinor), [x, y, z], ?_, Or.inr (by simp)⟩
          simp only [compare_game_version, GVArg.resolve, hs, if_neg h1,
            List.getElem?_cons_succ, List.getElem?_cons_zero]
          simp [h2, GVArg.update]
        · refine ⟨(if y > n then VersionCompareStatus.OlderMajor
            else VersionCompareStatus.NewerMajor), [x, y, z], ?_, Or.inr (by simp)⟩
          simp only [compare_game_version, GVArg.resolve, hs, if_neg h1,
            List.getElem?_cons_succ, List.getElem?_cons_zero]
          simp [h2, GVArg.update]
    · by_cases h1 : ([x, y, z] : List Int) = [1, n, p]
      · exact ⟨VersionCompareStatus.Consistent, [x, y, z],
          by simp only [compare_game_version, GVArg.resolve, hs, if_pos h1]; rfl,
          Or.inr (by simp)⟩
      · by_cases h2 : y = n
        · refine ⟨(if z > p then VersionCompareStatus.OlderMinor
            else VersionCompareStatus.NewerMinor), [x, y, z], ?_, Or.inr (by simp)⟩
          simp only [compare_game_version, GVArg.resolve, hs, if_neg h1,
            List.getElem?_cons_succ, List.getElem?_cons_zero]
          simp [h2, GVArg.update]
        · refine ⟨(if y > n then VersionCompareStatus.OlderMajor
            else VersionCompareStatus.NewerMajor), [x, y, z], ?_, Or.inr (by simp)⟩
          simp only [compare_game_version, GVArg.resolve, hs, if_neg h1,
            List.getElem?_cons_succ, List.getElem?_cons_zero]
          simp [h2, GVArg.update]

theorem cgvsLoop_total (l : List String) :
    ∀ (v1 : List Int) (final : VersionCompareStatus) (vres : Option String),
      (v1.length = 2 ∨ v1.length = 3) →
      ∃ r, cgvsLoop v1 final vres l = some r := by
  induction l with
  | nil => intro v1 final vres _; exact ⟨(final, vres), rfl⟩
  | cons s rest ih =>
    intro v1 final vres h
    obtain ⟨st, v1', heq, hlen⟩ := cgv_list_str_total v1 s h
    rw [cgvsLoop.eq_def]
    dsimp only
    rw [heq]
    dsimp only
    by_cases hc : (if adoptDecision final st vres s then st else final) =
        VersionCompareStatus.Consistent
    · rw [if_pos hc]
      exact ⟨_, rfl⟩
    · rw [if_neg hc]
      exact ih v1' _ _ hlen

theorem mrCompare_total (target : String) (vt : List Int)
    (ht : check_valid_game_version target = some vt) (gvs : List String) :
    ∃ s ver, mrCompare target gvs = some (s, ver) := by
  have hlen : vt.length = 2 ∨ vt.length = 3 := by
    rcases check_valid_shape target vt ht with ⟨m, rfl⟩ | ⟨m, p, rfl⟩
    · left; simp
    · right; simp
  obtain ⟨r, hr⟩ := cgvsLoop_total gvs vt VersionCompareStatus.InvalidVersion none hlen
  refine ⟨r.1, r.2, ?_⟩
  simp only [mrCompare, compare_game_versions, ht, hr]
  rfl

theorem mrLoop_cons {α : Type} (loader target : String) (checks : Int)
    (best : Option (Option String × MRVersion α)) (counter : Int) (visited : Nat)
    (evs : List MRTieEvent) (r : MRVersion α) (rest : List (MRVersion α)) :
    mrLoop loader target checks best counter visited evs (r :: rest) =
    (if ¬ loader ∈ r.loaders then mrLoop loader target checks best counter (visited + 1) evs rest
    else if r.files.length = 0 then
      mrLoop loader target checks best counter (visited + 1) evs rest
    else if r.game_versions.length = 0 then
      mrLoop loader target checks best counter (visited + 1) evs rest
    else if r.version_type = none ∨ r.version_type = some "alpha" then
      mrLoop loader target checks best counter (visited + 1) evs rest
    else
      match mrCompare target r.game_versions with
      | none => (FetchResult.pythonError, visited + 1, evs)
      | some (s, version) =>
        if s = VersionCompareStatus.Consistent ∨ s = VersionCompareStatus.OlderMinor then
          match best with
          | none =>
            if checks ≤ (0 : Int) then (mrStop (some (version, r)), visited + 1, evs)
            else mrLoop loader target checks (some (version, r)) 0 (visited + 1) evs rest
          | some (lv, sf) =>
            match version, lv with
            | some vstr, some lvstr =>
              let s2 := compare_game_version_str vstr lvstr
              let adopt := s2 = VersionCompareStatus.OlderMinor ∨
                s2 = VersionCompareStatus.OlderMajor ∨
                (s2 = VersionCompareStatus.Consistent ∧ sf.version_type = some "beta" ∧
                  r.version_type = some "release")
              let evs' := if s2 = VersionCompareStatus.Consistent
                then evs ++ [⟨sf.version_type, r.version_type, decide adopt⟩] else evs
              if adopt then
                if checks ≤ (0 : Int) then (mrStop (some (version, r)), visited + 1, evs')
                else mrLoop loader target checks (some (version, r)) 0 (visited + 1) evs' rest
              else
                if checks ≤ counter + 1 then (mrStop best, visited + 1, evs')
                else mrLoop loader target checks best (counter + 1) (visited + 1) evs' rest
            | _, _ => (FetchResult.pythonError, visited + 1, evs)
        else
          match best with
          | some _ =>
            if checks ≤ counter + 1 then (mrStop best, visited + 1, evs)
            else mrLoop loader target checks best (counter + 1) (visited + 1) evs rest
          | none =>
            if checks ≤ counter then (mrStop best, visited + 1, evs)
            else mrLoop loader target checks best counter (visited + 1) evs rest) := rfl

theorem mrLoop_skip_front {α : Type} (loader target : String) (checks : Int)
    (hch : 0 < checks) (vt : List Int) (ht : check_valid_game_version target = some vt)
    (A : List (MRVersion α)) :
    ∀ (visited : Nat) (evs : List MRTieEvent) (rest : List (MRVersion α)),
      (∀ a ∈ A, MRSkipped loader a ∨ ¬ acceptableStatus (mrStatusOf target a)) →
      mrLoop loader target checks none (-1) visited evs (A ++ rest) =
        mrLoop loader target checks none (-1) (visited + A.length) evs rest := by
  induction A with
  | nil => intro visited evs rest _; simp
  | cons a A ih =>
    intro visited evs rest hA
    rw [List.cons_append, mrLoop_cons]
    dsimp only
    have step : ∀ (v' : Nat),
        v' = visited + 1 →
        mrLoop loader target checks none (-1) v' evs (A ++ rest) =
          mrLoop loader target checks none (-1) (visited + (a :: A).length) evs rest := by
      intro v' hv'
      rw [hv', ih (visited + 1) evs rest (fun x hx => hA x (List.mem_cons_of_mem a hx))]
      congr 1
      simp [List.length_cons]
      omega
    by_cases c1 : ¬ loader ∈ a.loaders
    · rw [if_pos c1]; exact step (visited + 1) rfl
    · rw [if_neg c1]
      by_cases c2 : a.files.length = 0
      · rw [if_pos c2]; exact step (visited + 1) rfl
      · rw [if_neg c2]
        by_cases c3 : a.game_versions.length = 0
        · rw [if_pos c3]; exact step (visited + 1) rfl
        · rw [if_neg c3]
          by_cases c4 : a.version_type = none ∨ a.version_type = some "alpha"
          · rw [if_pos c4]; exact step (visited + 1) rfl
          · rw [if_neg c4]
            have hunacc : ¬ acceptableStatus (mrStatusOf target a) := by
              rcases hA a (List.mem_cons_self a A) with hsk | hun
              · exfalso
                rcases hsk with h | h | h | h | h
                · exact c1 h
                · exact c2 h
                · exact c3 h
                · exact c4 (Or.inl h)
                · exact c4 (Or.inr h)
              · exact hun
            simp only [acceptableStatus] at hunacc
            obtain ⟨s, ver, heq⟩ := mrCompare_total target vt ht a.game_versions
            rw [heq]
            dsimp only
            have hs : mrStatusOf target a = s := by
              simp only [mrStatusOf, heq]
            rw [hs] at hunacc
            rw [if_neg hunacc, if_neg (show ¬ checks ≤ (-1 : Int) by omega)]
            exact step (visited + 1) rfl

theorem mrLoop_count_after {α : Type} (loader target : String) (checks : Int)
    (vt : List Int) (ht : check_valid_game_version target = some vt)
    (C : List (MRVersion α)) :
    ∀ (j : Int) (visited : Nat) (evs : List MRTieEvent) (lv : Option String)
      (sf : MRVersion α),
      0 ≤ j → j < checks → checks - j ≤ (C.length : Int) →
      (∀ c ∈ C, ¬ MRSkipped loader c ∧ ¬ acceptableStatus (mrStatusOf target c)) →
      mrLoop loader target checks (some (lv, sf)) j visited evs C =
        (mrStop (some (lv, sf)), visited + (checks - j).toNat, evs) := by
  induction C with
  | nil =>
    intro j visited evs lv sf h0 hj hlen _
    exfalso
    simp at hlen
    omega
  | cons c C ih =>
    intro j visited evs lv sf h0 hj hlen hC
    obtain ⟨hnskip, hnacc⟩ := hC c (List.mem_cons_self c C)
    simp only [MRSkipped, not_or] at hnskip
    simp only [acceptableStatus] at hnacc
    obtain ⟨h1, h2, h3, h4, h5⟩ := hnskip
    rw [mrLoop_cons]
    dsimp only
    rw [if_neg (fun hh => h1 hh), if_neg h2, if_neg h3, if_neg (not_or.mpr ⟨h4, h5⟩)]
    obtain ⟨s, ver, heq⟩ := mrCompare_total target vt ht c.game_versions
    rw [heq]
    dsimp only
    have hs : mrStatusOf target c = s := by simp only [mrStatusOf, heq]
    rw [hs] at hnacc
    rw [if_neg hnacc]
    by_cases hstop : checks ≤ j + 1
    · rw [if_pos hstop]
      have ht1 : (checks - j).toNat = 1 := by omega
      rw [ht1]
    · rw [if_neg hstop]
      rw [ih (j + 1) (visited + 1) evs lv sf (by omega) (by omega)
        (by simp at hlen ⊢; omega) (fun x hx => hC x (List.mem_cons_of_mem c hx))]
      have hv : visited + 1 + (checks - (j + 1)).toNat = visited + (checks - j).toNat := by
        omega
      rw [hv]

theorem mrRun_lookahead {α : Type} (loader target : String) (checks : Int)
    (vt : List Int) (ht : check_valid_game_version target = some vt)
    (A : List (MRVersion α)) (b : MRVersion α) (C : List (MRVersion α))
    (a0 : α) (tl : List α)
    (hA : ∀ a ∈ A, MRSkipped loader a ∨ ¬ acceptableStatus (mrStatusOf target a))
    (hbskip : ¬ MRSkipped loader b) (hbacc : acceptableStatus (mrStatusOf target b))
    (hC : ∀ c ∈ C, ¬ MRSkipped loader c ∧ ¬ acceptableStatus (mrStatusOf target c))
    (hch : 0 < checks) (hlen : checks ≤ (C.length : Int)) (hfiles : b.files = a0 :: tl) :
    (mrRun loader target checks (A ++ b :: C)).1 =
      FetchResult.success (mrVersionOf target b) a0 ∧
    (mrRun loader target checks (A ++ b :: C)).2.1 = A.length + 1 + checks.toNat := by
  unfold mrRun
  rw [mrLoop_skip_front loader target checks hch vt ht A 0 [] (b :: C) hA]
  simp only [MRSkipped, not_or] at hbskip
  obtain ⟨h1, h2, h3, h4, h5⟩ := hbskip
  simp only [acceptableStatus] at hbacc
  rw [mrLoop_cons]
  dsimp only
  rw [if_neg (fun hh => h1 hh), if_neg h2, if_neg h3, if_neg (not_or.mpr ⟨h4, h5⟩)]
  obtain ⟨s, ver, heq⟩ := mrCompare_total target vt ht b.game_versions
  rw [heq]
  dsimp only
  have hs : mrStatusOf target b = s := by simp only [mrStatusOf, heq]
  rw [hs] at hbacc
  rw [if_pos hbacc, if_neg (show ¬ checks ≤ (0 : Int) by omega)]
  rw [mrLoop_count_after loader target checks vt ht C 0 (0 + A.length + 1) []
    ver b le_rfl hch (by omega) hC]
  constructor
  · have hver : mrVersionOf target b = ver := by simp only [mrVersionOf, heq]
    simp [mrStop, hfiles, hver]
  · simp

theorem ghLoop_events {α : Type} (target : String) (checks : Int)
    (rs : List (GHRelease α)) :
    ∀ (best : Option (Option String × GHRelease α)) (counter : Int) (visited : Nat)
      (evs : List GHTieEvent),
      (∀ lv sf, best = some (lv, sf) → sf.prerelease = false) →
      (∀ e ∈ evs, e.adopted = ghStrictlyBetter e.newPre e.bestPre) →
      ∀ e ∈ (ghLoop target checks best counter visited evs rs).2.2,
        e.adopted = ghStrictlyBetter e.newPre e.bestPre := by
  induction rs with
  | nil =>
    intro best counter visited evs _ hevs e he
    exact hevs e he
  | cons r rest ih =>
    intro best counter visited evs hbest hevs
    rw [ghLoop.eq_def]
    dsimp only
    by_cases hpre : r.prerelease = true
    · rw [if_pos hpre]
      exact ih best counter (visited + 1) evs hbest hevs
    · rw [if_neg hpre]
      by_cases hass : r.assets.length = 0
      · rw [if_pos hass]
        exact ih best counter (visited + 1) evs hbest hevs
      · rw [if_neg hass]
        by_cases hacc : (fuzzy_compare_game_version target [r.tag_name, r.name]).1 =
            VersionCompareStatus.Consistent ∨
            (fuzzy_compare_game_version target [r.tag_name, r.name]).1 =
            VersionCompareStatus.OlderMinor
        · rw [if_pos hacc]
          cases best with
          | none =>
            dsimp only
            by_cases hc : checks ≤ (0 : Int)
            · rw [if_pos hc]
              exact fun e he => hevs e he
            · rw [if_neg hc]
              refine ih _ 0 (visited + 1) evs ?_ hevs
              intro lv sf hsome
              injection hsome with hpair
              have hsf : sf = r := (congrArg Prod.snd hpair).symm
              rw [hsf]
              exact Bool.not_eq_true r.prerelease |>.mp hpre
          | some p =>
            rcases p with ⟨lv, sf⟩
            have hsf : sf.prerelease = false := hbest lv sf rfl
            dsimp only
            cases hv : (fuzzy_compare_game_version target [r.tag_name, r.name]).2 with
            | none =>
              dsimp only
              cases lv with
              | none => exact fun e he => hevs e he
              | some lvstr => exact fun e he => hevs e he
            | some vstr =>
              cases lv with
              | none =>
                dsimp only
                exact fun e he => hevs e he
              | some lvstr =>
                dsimp only
                have hrpre : r.prerelease = false := Bool.not_eq_true r.prerelease |>.mp hpre
                have hevs' : ∀ e ∈ (if compare_game_version_str vstr lvstr =
                    VersionCompareStatus.Consistent then
                      evs ++ [⟨sf.prerelease, r.prerelease,
                        decide (compare_game_version_str vstr lvstr =
                            VersionCompareStatus.OlderMinor ∨
                          compare_game_version_str vstr lvstr =
                            VersionCompareStatus.OlderMajor ∨
                          (compare_game_version_str vstr lvstr =
                            VersionCompareStatus.Consistent ∧ sf.prerelease = false ∧
                            r.prerelease = true))⟩]
                    else evs),
                    e.adopted = ghStrictlyBetter e.newPre e.bestPre := by
                  by_cases hs2 : compare_game_version_str vstr lvstr =
                      VersionCompareStatus.Consistent
                  · rw [if_pos hs2]
                    intro e he
                    rcases List.mem_append.mp he with h | h
                    · exact hevs e h
                    · rw [List.mem_singleton.mp h]
                      dsimp only
                      have hnadopt : ¬ (compare_game_version_str vstr lvstr =
                            VersionCompareStatus.OlderMinor ∨
                          compare_game_version_str vstr lvstr =
                            VersionCompareStatus.OlderMajor ∨
                          (compare_game_version_str vstr lvstr =
                            VersionCompareStatus.Consistent ∧ sf.prerelease = false ∧
                            r.prerelease = true)) := by
                        rw [hs2]
                        rintro (h | h | ⟨-, -, h⟩)
                        · exact absurd h (by decide)
                        · exact absurd h (by decide)
                        · rw [hrpre] at h; exact absurd h (by decide)
                      rw [decide_eq_false hnadopt, hsf, hrpre]
                      rfl
                  · rw [if_neg hs2]
                    exact hevs
                by_cases hadopt : compare_game_version_str vstr lvstr =
                    VersionCompareStatus.OlderMinor ∨
                  compare_game_version_str vstr lvstr = VersionCompareStatus.OlderMajor ∨
                  (compare_game_version_str vstr lvstr = VersionCompareStatus.Consistent ∧
                    sf.prerelease = false ∧ r.prerelease = true)
                · rw [if_pos hadopt]
                  by_cases hc : checks ≤ (0 : Int)
                  · rw [if_pos hc]
                    exact hevs'
                  · rw [if_neg hc]
                    refine ih _ 0 (visited + 1) _ ?_ hevs'
                    intro lv2 sf2 hsome
                    injection hsome with hpair
                    have hsf2 : sf2 = r := (congrArg Prod.snd hpair).symm
                    rw [hsf2]
                    exact Bool.not_eq_true r.prerelease |>.mp hpre
                · rw [if_neg hadopt]
                  by_cases hc : checks ≤ counter + 1
                  · rw [if_pos hc]
                    exact hevs'
                  · rw [if_neg hc]
                    exact ih _ (counter + 1) (visited + 1) _ (fun lv2 sf2 hsome => by
                      injection hsome with hpair
                      have h2 : sf2 = sf := (congrArg Prod.snd hpair).symm
                      rw [h2]; exact hsf) hevs'
        · rw [if_neg hacc]
          cases best with
          | none =>
            dsimp only
            by_cases hc : checks ≤ counter
            · rw [if_pos hc]
              exact fun e he => hevs e he
            · rw [if_neg hc]
              exact ih none counter (visited + 1) evs hbest hevs
          | some p =>
            dsimp only
            by_cases hc : checks ≤ counter + 1
            · rw [if_pos hc]
              exact fun e he => hevs e he
            · rw [if_neg hc]
              exact ih _ (counter + 1) (visited + 1) evs hbest hevs

theorem mrTie_decide (s2 : VersionCompareStatus) (hs2 : s2 = VersionCompareStatus.Consistent)
    (bt nt : Option String)
    (hb : bt = some "beta" ∨ bt = some "release")
    (hn : nt = some "beta" ∨ nt = some "release") :
    decide (s2 = VersionCompareStatus.OlderMinor ∨ s2 = VersionCompareStatus.OlderMajor ∨
      (s2 = VersionCompareStatus.Consistent ∧ bt = some "beta" ∧ nt = some "release")) =
      mrStrictlyBetter nt bt := by
  rcases hb with hb | hb <;> rcases hn with hn | hn
  · rw [decide_eq_false, hb, hn]
    · decide
    · rintro (h | h | ⟨-, -, h⟩)
      · rw [hs2] at h; exact absurd h (by decide)
      · rw [hs2] at h; exact absurd h (by decide)
      · rw [hn] at h; simp at h
  · rw [decide_eq_true (Or.inr (Or.inr ⟨hs2, hb, hn⟩)), hb, hn]
    decide
  · rw [decide_eq_false, hb, hn]
    · decide
    · rintro (h | h | ⟨-, h, -⟩)
      · rw [hs2] at h; exact absurd h (by decide)
      · rw [hs2] at h; exact absurd h (by decide)
      · rw [hb] at h; simp at h
  · rw [decide_eq_false, hb, hn]
    · decide
    · rintro (h | h | ⟨-, h, -⟩)
      · rw [hs2] at h; exact absurd h (by decide)
      · rw [hs2] at h; exact absurd h (by decide)
      · rw [hb] at h; simp at h

theorem mrLoop_events {α : Type} (loader target : String) (checks : Int)
    (vs : List (MRVersion α)) :
    ∀ (best : Option (Option String × MRVersion α)) (counter : Int) (visited : Nat)
      (evs : List MRTieEvent),
      (∀ v ∈ vs, MRTypeOK v) →
      (∀ lv sf, best = some (lv, sf) →
        sf.version_type = some "beta" ∨ sf.version_type = some "release") →
      (∀ e ∈ evs, e.adopted = mrStrictlyBetter e.newType e.bestType) →
      ∀ e ∈ (mrLoop loader target checks best counter visited evs vs).2.2,
        e.adopted = mrStrictlyBetter e.newType e.bestType := by
  induction vs with
  | nil =>
    intro best counter visited evs _ _ hevs e he
    exact hevs e he
  | cons r rest ih =>
    intro best counter visited evs hty hbest hevs
    have htyrest : ∀ v ∈ rest, MRTypeOK v := fun v hv => hty v (List.mem_cons_of_mem r hv)
    rw [mrLoop_cons]
    by_cases c1 : ¬ loader ∈ r.loaders
    · rw [if_pos c1]; exact ih best counter (visited + 1) evs htyrest hbest hevs
    · rw [if_neg c1]
      by_cases c2 : r.files.length = 0
      · rw [if_pos c2]; exact ih best counter (visited + 1) evs htyrest hbest hevs
      · rw [if_neg c2]
        by_cases c3 : r.game_versions.length = 0
        · rw [if_pos c3]; exact ih best counter (visited + 1) evs htyrest hbest hevs
        · rw [if_neg c3]
          by_cases c4 : r.version_type = none ∨ r.version_type = some "alpha"
          · rw [if_pos c4]; exact ih best counter (visited + 1) evs htyrest hbest hevs
          · rw [if_neg c4]
            have hrty : r.version_type = some "beta" ∨ r.version_type = some "release" := by
              rcases hty r (List.mem_cons_self r rest) with h | h | h | h
              · exact absurd (Or.inl h) c4
              · exact absurd (Or.inr h) c4
              · exact Or.inl h
              · exact Or.inr h
            cases hcomp : mrCompare target r.game_versions with
            | none =>
              dsimp only
              exact fun e he => hevs e he
            | some p =>
              rcases p with ⟨s, version⟩
              dsimp only
              by_cases hacc : s = VersionCompareStatus.Consistent ∨
                  s = VersionCompareStatus.OlderMinor
              · rw [if_pos hacc]
                cases best with
                | none =>
                  dsimp only
                  by_cases hc : checks ≤ (0 : Int)
                  · rw [if_pos hc]
                    exact fun e he => hevs e he
                  · rw [if_neg hc]
                    refine ih _ 0 (visited + 1) evs htyrest ?_ hevs
                    intro lv sf hsome
                    injection hsome with hpair
                    have hsf : sf = r := (congrArg Prod.snd hpair).symm
                    rw [hsf]
                    exact hrty
                | some p2 =>
                  rcases p2 with ⟨lv, sf⟩
                  have hsfty := hbest lv sf rfl
                  dsimp only
                  cases version with
                  | none =>
                    dsimp only
                    cases lv with
                    | none => exact fun e he => hevs e he
                    | some lvstr => exact fun e he => hevs e he
                  | some vstr =>
                    cases lv with
                    | none =>
                      dsimp only
                      exact fun e he => hevs e he
                    | some lvstr =>
                      dsimp only
                      have hevs' : ∀ e ∈ (if compare_game_version_str vstr lvstr =
                          VersionCompareStatus.Consistent then
                            evs ++ [⟨sf.version_type, r.version_type,
                              decide (compare_game_version_str vstr lvstr =
                                  VersionCompareStatus.OlderMinor ∨
                                compare_game_version_str vstr lvstr =
                                  VersionCompareStatus.OlderMajor ∨
                                (compare_game_version_str vstr lvstr =
                                  VersionCompareStatus.Consistent ∧
                                  sf.version_type = some "beta" ∧
                                  r.version_type = some "release"))⟩]
                          else evs),
                          e.adopted = mrStrictlyBetter e.newType e.bestType := by
                        by_cases hs2 : compare_game_version_str vstr lvstr =
                            VersionCompareStatus.Consistent
                        · rw [if_pos hs2]
                          intro e he
                          rcases List.mem_append.mp he with h | h
                          · exact hevs e h
                          · rw [List.mem_singleton.mp h]
                            dsimp only
                            exact mrTie_decide _ hs2 sf.version_type r.version_type hsfty hrty
                        · rw [if_neg hs2]
                          exact hevs
                      by_cases hadopt : compare_game_version_str vstr lvstr =
                          VersionCompareStatus.OlderMinor ∨
                        compare_game_version_str vstr lvstr =
                          VersionCompareStatus.OlderMajor ∨
                        (compare_game_version_str vstr lvstr =
                          VersionCompareStatus.Consistent ∧
                          sf.version_type = some "beta" ∧ r.version_type = some "release")
                      · rw [if_pos hadopt]
                        by_cases hc : checks ≤ (0 : Int)
                        · rw [if_pos hc]
                          exact hevs'
                        · rw [if_neg hc]
                          refine ih _ 0 (visited + 1) _ htyrest ?_ hevs'
                          intro lv2 sf2 hsome
                          injection hsome with hpair
                          have hsf2 : sf2 = r := (congrArg Prod.snd hpair).symm
                          rw [hsf2]
                          exact hrty
                      · rw [if_neg hadopt]
                        by_cases hc : checks ≤ counter + 1
                        · rw [if_pos hc]
                          exact hevs'
                        · rw [if_neg hc]
                          exact ih _ (counter + 1) (visited + 1) _ htyrest (fun lv2 sf2 hsome => by
                            injection hsome with hpair
                            have h2 : sf2 = sf := (congrArg Prod.snd hpair).symm
                            rw [h2]; exact hsfty) hevs'
              · rw [if_neg hacc]
                cases best with
                | none =>
                  dsimp only
                  by_cases hc : checks ≤ counter
                  · rw [if_pos hc]
                    exact fun e he => hevs e he
                  · rw [if_neg hc]
                    exact ih none counter (visited + 1) evs htyrest hbest hevs
                | some p2 =>
                  dsimp only
                  by_cases hc : checks ≤ counter + 1
                  · rw [if_pos hc]
                    exact fun e he => hevs e he
                  · rw [if_neg hc]
                    exact ih _ (counter + 1) (visited + 1) evs htyrest hbest hevs

/-- C3.  For both the GitHub and Modrinth backends: on a candidate stream in
which the best acceptable match `b` sits at (1-indexed) position
`k = A.length + 1` — preceded by skipped-or-unacceptable entries and followed
by at least `checks_after_latest` non-skipped ineligible (unacceptable)
entries — the resolution loop returns the artifact adopted at position `k`
(the matched version and first asset/file of `b`), and it visits exactly
`k + threshold` candidates, i.e. it stops as soon as the streak counter
reaches the configured threshold; `k + threshold` never exceeds the stream
length. -/
theorem c3_lookahead_termination :
    (∀ (α : Type) (target : String) (checks : Int) (A : List (GHRelease α))
        (b : GHRelease α) (C : List (GHRelease α)) (a0 : α) (tl : List α),
      (∀ a ∈ A, GHSkipped a ∨ ¬ acceptableStatus (ghStatusOf target a)) →
      ¬ GHSkipped b → acceptableStatus (ghStatusOf target b) →
      (∀ c ∈ C, ¬ GHSkipped c ∧ ¬ acceptableStatus (ghStatusOf target c)) →
      0 < checks → checks ≤ (C.length : Int) → b.assets = a0 :: tl →
      (ghRun target checks (A ++ b :: C)).1 =
        FetchResult.success (ghVersionOf target b) a0 ∧
      (ghRun target checks (A ++ b :: C)).2.1 = A.length + 1 + checks.toNat ∧
      A.length + 1 + checks.toNat ≤ (A ++ b :: C).length) ∧
    (∀ (α : Type) (loader target : String) (checks : Int) (vt : List Int)
        (A : List (MRVersion α)) (b : MRVersion α) (C : List (MRVersion α))
        (a0 : α) (tl : List α),
      check_valid_game_version target = some vt →
      (∀ a ∈ A, MRSkipped loader a ∨ ¬ acceptableStatus (mrStatusOf target a)) →
      ¬ MRSkipped loader b → acceptableStatus (mrStatusOf target b) →
      (∀ c ∈ C, ¬ MRSkipped loader c ∧ ¬ acceptableStatus (mrStatusOf target c)) →
      0 < checks → checks ≤ (C.length : Int) → b.files = a0 :: tl →
      (mrRun loader target checks (A ++ b :: C)).1 =
        FetchResult.success (mrVersionOf target b) a0 ∧
      (mrRun loader target checks (A ++ b :: C)).2.1 = A.length + 1 + checks.toNat ∧
      A.length + 1 + checks.toNat ≤ (A ++ b :: C).length) := by
  constructor
  · intro α target checks A b C a0 tl hA hbs hba hC hch hlen hass
    obtain ⟨h1, h2⟩ := ghRun_lookahead target checks A b C a0 tl hA hbs hba hC hch hlen hass
    refine ⟨h1, h2, ?_⟩
    simp
    omega
  · intro α loader target checks vt A b C a0 tl ht hA hbs hba hC hch hlen hf
    obtain ⟨h1, h2⟩ :=
      mrRun_lookahead loader target checks vt ht A b C a0 tl hA hbs hba hC hch hlen hf
    refine ⟨h1, h2, ?_⟩
    simp
    omega

/-- C3, witness: both parts applied at concrete three- and two-entry
streams with threshold 1. -/
theorem c3_witness :
    ((ghRun "1.21" 1 ([(⟨true, [9], "t", "n"⟩ : GHRelease Nat)] ++
        (⟨false, [7], "v1.21", "rel"⟩ : GHRelease Nat) ::
        [(⟨false, [8], "v1.19", "x"⟩ : GHRelease Nat)])).1 =
      FetchResult.success (ghVersionOf "1.21" (⟨false, [7], "v1.21", "rel"⟩ : GHRelease Nat)) 7 ∧
      (ghRun "1.21" 1 ([(⟨true, [9], "t", "n"⟩ : GHRelease Nat)] ++
        (⟨false, [7], "v1.21", "rel"⟩ : GHRelease Nat) ::
        [(⟨false, [8], "v1.19", "x"⟩ : GHRelease Nat)])).2.1 = 1 + 1 + (1 : Int).toNat ∧
      1 + 1 + (1 : Int).toNat ≤
        ([(⟨true, [9], "t", "n"⟩ : GHRelease Nat)] ++
          (⟨false, [7], "v1.21", "rel"⟩ : GHRelease Nat) ::
          [(⟨false, [8], "v1.19", "x"⟩ : GHRelease Nat)]).length) ∧
    ((mrRun "fabric" "1.21" 1 ([] ++
        (⟨["fabric"], [7], ["1.21"], some "release"⟩ : MRVersion Nat) ::
        [(⟨["fabric"], [8], ["1.19"], some "release"⟩ : MRVersion Nat)])).1 =
      FetchResult.success
        (mrVersionOf "1.21" (⟨["fabric"], [7], ["1.21"], some "release"⟩ : MRVersion Nat)) 7 ∧
      (mrRun "fabric" "1.21" 1 ([] ++
        (⟨["fabric"], [7], ["1.21"], some "release"⟩ : MRVersion Nat) ::
        [(⟨["fabric"], [8], ["1.19"], some "release"⟩ : MRVersion Nat)])).2.1 =
        List.length ([] : List (MRVersion Nat)) + 1 + (1 : Int).toNat ∧
      List.length ([] : List (MRVersion Nat)) + 1 + (1 : Int).toNat ≤
        (([] : List (MRVersion Nat)) ++
          (⟨["fabric"], [7], ["1.21"], some "release"⟩ : MRVersion Nat) ::
          [(⟨["fabric"], [8], ["1.19"], some "release"⟩ : MRVersion Nat)]).length) :=
  ⟨by
    have h := c3_lookahead_termination.1 Nat "1.21" 1
      [⟨true, [9], "t", "n"⟩] ⟨false, [7], "v1.21", "rel"⟩ [⟨false, [8], "v1.19", "x"⟩]
      7 [] (by decide) (by decide) (by decide) (by decide) (by decide) (by decide) rfl
    exact h,
   by
    have h := c3_lookahead_termination.2 Nat "fabric" "1.21" 1 [1, 21]
      [] ⟨["fabric"], [7], ["1.21"], some "release"⟩ [⟨["fabric"], [8], ["1.19"], some "release"⟩]
      7 [] (by decide) (by decide) (by decide) (by decide) (by decide) (by decide) (by decide) rfl
    exact h⟩

/-- C7.  In both resolution loops, whenever a new acceptable candidate's
version compares exactly tied (`Consistent`) against the current best's
version, the new candidate is adopted if and only if its release-quality
flag is strictly better than the current best's: on GitHub a release beats a
pre-release (both flags are in fact always `false` at the tie, so no tied
candidate is ever adopted there), and on Modrinth (whose `version_type` is
one of release/beta/alpha, or missing) a release beats a beta. -/
theorem c7_tie_release_quality :
    (∀ (α : Type) (target : String) (checks : Int) (rs : List (GHRelease α)),
      ∀ e ∈ (ghRun target checks rs).2.2,
        e.adopted = ghStrictlyBetter e.newPre e.bestPre) ∧
    (∀ (α : Type) (loader target : String) (checks : Int) (vs : List (MRVersion α)),
      (∀ v ∈ vs, MRTypeOK v) →
      ∀ e ∈ (mrRun loader target checks vs).2.2,
        e.adopted = mrStrictlyBetter e.newType e.bestType) := by
  constructor
  · intro α target checks rs
    exact ghLoop_events target checks rs none (-1) 0 []
      (fun lv sf h => by simp at h) (fun e he => by simp at he)
  · intro α loader target checks vs hty
    exact mrLoop_events loader target checks vs none (-1) 0 [] hty
      (fun lv sf h => by simp at h) (fun e he => by simp at he)

/-- C7, witness: both parts applied at concrete runs that produce one tie
event each — the GitHub run records an unadopted release/release tie, the
Modrinth run an adopted beta-to-release upgrade at equal version. -/
theorem c7_witness :
    (∀ e ∈ (ghRun "1.21" 5 [(⟨false, [1], "1.21", "a"⟩ : GHRelease Nat),
        ⟨false, [2], "1.21", "b"⟩]).2.2,
      e.adopted = ghStrictlyBetter e.newPre e.bestPre) ∧
    (∀ e ∈ (mrRun "fabric" "1.21" 5 [(⟨["fabric"], [1], ["1.21"], some "beta"⟩ : MRVersion Nat),
        ⟨["fabric"], [2], ["1.21"], some "release"⟩]).2.2,
      e.adopted = mrStrictlyBetter e.newType e.bestType) ∧
    (ghRun "1.21" 5 [(⟨false, [1], "1.21", "a"⟩ : GHRelease Nat),
      ⟨false, [2], "1.21", "b"⟩]).2.2 = [⟨false, false, false⟩] ∧
    (mrRun "fabric" "1.21" 5 [(⟨["fabric"], [1], ["1.21"], some "beta"⟩ : MRVersion Nat),
      ⟨["fabric"], [2], ["1.21"], some "release"⟩]).2.2 =
      [⟨some "beta", some "release", true⟩] :=
  ⟨c7_tie_release_quality.1 Nat "1.21" 5 [⟨false, [1], "1.21", "a"⟩, ⟨false, [2], "1.21", "b"⟩],
   c7_tie_release_quality.2 Nat "fabric" "1.21" 5
     [⟨["fabric"], [1], ["1.21"], some "beta"⟩, ⟨["fabric"], [2], ["1.21"], some "release"⟩]
     (by decide),
   by decide, by decide⟩

/-! ## Claims C2, C8, C9: the download manager -/

theorem downloadLoop_exhaust (oracle : List ServerResp) :
    ∀ (rangeHeader : Option Nat) (downloadedSize : Nat) (remaining attempt : Nat)
      (fs : FS) (bar : Bool) (sleeps : List Nat) (reqs : List (Option Nat)),
      fs.dest = none → 0 < remaining → remaining ≤ oracle.length →
      (∀ r ∈ oracle, r.isTransient = true) →
      ∃ k, (downloadLoop rangeHeader downloadedSize remaining attempt fs bar
          sleeps reqs oracle).outcome = DLOutcome.errorReturned k ∧
        (downloadLoop rangeHeader downloadedSize remaining attempt fs bar
          sleeps reqs oracle).fs.temp = none ∧
        (downloadLoop rangeHeader downloadedSize remaining attempt fs bar
          sleeps reqs oracle).fs.dest = none := by
  induction oracle with
  | nil =>
    intro rangeHeader downloadedSize remaining attempt fs bar sleeps reqs _ hpos hlen _
    exfalso
    simp at hlen
    omega
  | cons resp rest ih =>
    intro rangeHeader downloadedSize remaining attempt fs bar sleeps reqs hdest hpos hlen htr
    have htresp := htr resp (List.mem_cons_self resp rest)
    have htrest : ∀ r ∈ rest, r.isTransient = true :=
      fun r hr => htr r (List.mem_cons_of_mem resp hr)
    obtain ⟨rem, rfl⟩ : ∃ rem, remaining = rem + 1 := ⟨remaining - 1, by omega⟩
    rw [downloadLoop.eq_def]
    dsimp only
    cases resp with
    | status416 => exact absurd htresp (by simp [ServerResp.isTransient])
    | connError =>
      by_cases hrem : rem = 0
      · rw [if_pos hrem]
        cases bar <;> simp [hdest]
      · rw [if_neg hrem]
        exact ih rangeHeader downloadedSize rem (attempt + 1) fs bar
          (sleeps ++ [2 ^ attempt]) (reqs ++ [rangeHeader]) hdest (by omega)
          (by simp at hlen; omega) htrest
    | httpError =>
      by_cases hrem : rem = 0
      · rw [if_pos hrem]
        cases bar <;> simp [hdest]
      · rw [if_neg hrem]
        exact ih rangeHeader downloadedSize rem (attempt + 1) fs bar
          (sleeps ++ [2 ^ attempt]) (reqs ++ [rangeHeader]) hdest (by omega)
          (by simp at hlen; omega) htrest
    | ok chunks interrupted =>
      have hint : interrupted = true := htresp
      rw [hint]
      dsimp only
      rw [if_pos rfl]
      by_cases hrem : rem = 0
      · rw [if_pos hrem]
        exact ⟨ExnKind.clientError, rfl, rfl, hdest⟩
      · rw [if_neg hrem]
        exact ih rangeHeader downloadedSize rem (attempt + 1) _ true
          (sleeps ++ [2 ^ attempt]) (reqs ++ [rangeHeader]) hdest (by omega)
          (by simp at hlen; omega) htrest

/-- C9.  For every download request whose retries are exhausted (every
attempt fails transiently), `_download_single` surfaces a failure result
(the outer handler returns an exception — never `True`), deletes the temp
file, and leaves no file at the final destination: afterwards neither
`<destination>.tmp` nor `<destination>` exists. -/
theorem c9_retry_exhaustion (fs0 : FS) (maxRetries : Nat) (oracle : List ServerResp)
    (hdest : fs0.dest = none) (hpos : 0 < maxRetries) (hlen : maxRetries ≤ oracle.length)
    (htrans : ∀ r ∈ oracle, r.isTransient = true) :
    ∃ k, (download_single fs0 maxRetries oracle).outcome = DLOutcome.errorReturned k ∧
      (download_single fs0 maxRetries oracle).fs.temp = none ∧
      (download_single fs0 maxRetries oracle).fs.dest = none := by
  unfold download_single
  rw [if_neg (by simp [hdest])]
  exact downloadLoop_exhaust oracle _ _ maxRetries 0 fs0 false [] [] hdest hpos hlen htrans

/-- C9, witness: the theorem applied to a resumed download whose three
attempts fail with a connection error, an HTTP error status, and a
mid-stream interruption. -/
theorem c9_witness :
    (⟨some [1, 2], none⟩ : FS).dest = none ∧ 0 < 3 ∧
    (3 ≤ ([ServerResp.connError, ServerResp.httpError,
      ServerResp.ok [[5]] true] : List ServerResp).length) ∧
    (∀ r ∈ ([ServerResp.connError, ServerResp.httpError,
      ServerResp.ok [[5]] true] : List ServerResp), r.isTransient = true) ∧
    ∃ k, (download_single ⟨some [1, 2], none⟩ 3 [ServerResp.connError, ServerResp.httpError,
        ServerResp.ok [[5]] true]).outcome = DLOutcome.errorReturned k ∧
      (download_single ⟨some [1, 2], none⟩ 3 [ServerResp.connError, ServerResp.httpError,
        ServerResp.ok [[5]] true]).fs.temp = none ∧
      (download_single ⟨some [1, 2], none⟩ 3 [ServerResp.connError, ServerResp.httpError,
        ServerResp.ok [[5]] true]).fs.dest = none :=
  ⟨rfl, by decide, by decide, by decide,
   c9_retry_exhaustion ⟨some [1, 2], none⟩ 3
     [ServerResp.connError, ServerResp.httpError, ServerResp.ok [[5]] true]
     rfl (by decide) (by decide) (by decide)⟩

/-- C2, failing-input evaluation.  Resuming a 2-byte temp file, the first
attempt appends byte 9 (on-disk size becomes 3) and then fails transiently;
the code does wait `2^attempt` seconds (sleeps = [1]), but the retry re-sends
the `Range` offset computed at entry (2, not the current on-disk size 3) and
appends the re-sent bytes, so byte 9 is duplicated and the final file is
[7,8,9,9,10] instead of [7,8,9,10] — partial progress written during the
failed attempt is duplicated, contradicting the claim. -/
theorem c2_stale_offset_bug :
    download_single ⟨some [7, 8], none⟩ 3
        [ServerResp.ok [[9]] true, ServerResp.ok [[9, 10]] false] =
      ⟨DLOutcome.success, ⟨none, some [7, 8, 9, 9, 10]⟩, [1], [some 2, some 2]⟩ ∧
    (some [7, 8, 9, 9, 10] : Option (List Nat)) ≠ some [7, 8, 9, 10] := by decide

/-- C8, failing-input evaluation.  With a 5-byte temp file whose offset is
no longer satisfiable, the first 416 deletes the temp file but the retry
re-sends the same `Range: bytes=5-` header (not an unranged request from
offset 0); the deterministic second 416 then makes `os.remove` raise
`FileNotFoundError`, which is surfaced as a generic failure — contradicting
the claim on both counts. -/
theorem c8_416_bug :
    download_single ⟨some [0, 0, 0, 0, 0], none⟩ 3
        [ServerResp.status416, ServerResp.status416] =
      ⟨DLOutcome.errorReturned ExnKind.fileNotFound, ⟨none, none⟩, [], [some 5, some 5]⟩ := by
  decide
